import Mathlib

/-!
Verification of the Cortica memory core (`cortica/memory.py`, `cortica/decay.py`).

The Python code is shallowly embedded:
* Python floats are modelled as real numbers (`ℝ`), so `math.sqrt` is `Real.sqrt`
  and `0.5 ** x` is real `rpow`.
* Python `dict`s (which preserve insertion order) are modelled as association
  lists with `dictGet` / `dictSet` (update-in-place-or-append) semantics.
* `time.time()` is modelled by passing the current wall-clock value `wall : ℝ`
  explicitly to every operation that reads the clock; the several `time.time()`
  calls inside one method are modelled as returning the same instant.
* Python truthiness matters in two places and is modelled faithfully:
  `timestamp or time.time()` / `now or time.time()` treat the float `0.0` as
  missing, and `if not next_node` in `traverse` treats the empty string as
  absent.
* Real division by zero is Lean's `x / 0 = 0`; Python would raise
  `ZeroDivisionError` instead.  No theorem below depends on the value of a
  division by zero (the cosine denominator is proved nonzero; decay theorems
  that divide by `half_life` assume or use a nonzero half-life).
-/

namespace Cortica

/-- Insertion-ordered dictionary lookup: first binding of the key wins
(Python dicts hold each key at most once). -/
def dictGet {α : Type} : List (String × α) → String → Option α
  | [], _ => none
  | (k1, v) :: rest, k => if k1 = k then some v else dictGet rest k

/-- Insertion-ordered dictionary write: update the existing binding in place,
or append a fresh binding at the end — exactly Python `d[k] = v` semantics. -/
def dictSet {α : Type} : List (String × α) → String → α → List (String × α)
  | [], k, v => [(k, v)]
  | (k1, v1) :: rest, k, v =>
    if k1 = k then (k1, v) :: rest else (k1, v1) :: dictSet rest k v

/-- A stored memory node: `{"concept": ..., "embedding": ..., "metadata": ...}`.
Metadata is opaque to the whole core; it is carried as an association list. -/
structure Node where
  concept : String
  embedding : List ℝ
  metadata : List (String × String)

/-- A node together with the retrieval score attached by `retrieve`
(the Python code builds the merged dict `\x7b**node, "score": score\x7d`). -/
structure Scored where
  node : Node
  score : ℝ

/-- State of `cortica.decay.MemoryDecay`: the configured half-life and the
`memory_times` map from concept to last-accessed timestamp. -/
structure MemoryDecay where
  half_life : ℝ
  memory_times : List (String × ℝ)

/-- Constructor `MemoryDecay(half_life)`: stores the half-life verbatim —
the source performs no validation — and starts with an empty timestamp map. -/
def MemoryDecay.init (half_life : ℝ) : MemoryDecay :=
  { half_life := half_life, memory_times := [] }

/-- Resolution of the Python idiom `x or time.time()` for an optional float
argument: `None` and the falsy float `0.0` both fall back to the clock. -/
noncomputable def orWall (x : Option ℝ) (wall : ℝ) : ℝ :=
  match x with
  | some t => if t = 0 then wall else t
  | none => wall

/-- Method `MemoryDecay.register(concept, timestamp=None)`: writes
`timestamp or time.time()` into `memory_times[concept]`. -/
noncomputable def MemoryDecay.register (d : MemoryDecay) (concept : String) (timestamp : Option ℝ)
    (wall : ℝ) : MemoryDecay :=
  { half_life := d.half_life,
    memory_times := dictSet d.memory_times concept (orWall timestamp wall) }

/-- Method `MemoryDecay.strength(concept, now=None)`: resolves `now` with the
same falsy-zero fallback, defaults an unregistered concept's last-touched time
to `now`, and returns `0.5 ** ((now - last) / half_life)` (real `rpow`). -/
noncomputable def MemoryDecay.strength (d : MemoryDecay) (concept : String)
    (now : Option ℝ) (wall : ℝ) : ℝ :=
  let n := orWall now wall
  let last := (dictGet d.memory_times concept).getD n
  let delta := n - last
  (0.5 : ℝ) ^ (delta / d.half_life)

/-- Method `MemoryDecay.should_forget(concept, threshold)`:
`strength(concept) < threshold`. -/
noncomputable def MemoryDecay.should_forget (d : MemoryDecay) (concept : String)
    (threshold : ℝ) (wall : ℝ) : Bool :=
  decide (d.strength concept none wall < threshold)

/-- Adjacency structure of the graph: `defaultdict(dict)` from concept to
(concept → edge weight), both levels in insertion order. -/
abbrev EdgeDict := List (String × List (String × ℝ))

/-- Python `self.edges[k1][k2] = w` on a `defaultdict(dict)`: materialise the
outer entry if missing (at the end, where `defaultdict` creates it), then write
the inner binding. -/
def edgeSet (es : EdgeDict) (k1 k2 : String) (w : ℝ) : EdgeDict :=
  dictSet es k1 (dictSet ((dictGet es k1).getD []) k2 w)

/-- Two-level adjacency lookup (`k2 in self.edges.get(k1, {})`). -/
def edgeGet (es : EdgeDict) (k1 k2 : String) : Option ℝ :=
  match dictGet es k1 with
  | none => none
  | some inner => dictGet inner k2

/-- State of `cortica.memory.MemoryGraph`. -/
structure MemoryGraph where
  nodes : List Node
  edges : EdgeDict
  decay : Option MemoryDecay
  link_threshold : ℝ

/-- Constructor `MemoryGraph(use_decay, decay_half_life, link_threshold)`:
no validation of any argument. -/
def MemoryGraph.init (use_decay : Bool) (decay_half_life : ℝ)
    (link_threshold : ℝ) : MemoryGraph :=
  { nodes := [],
    edges := [],
    decay := if use_decay then some (MemoryDecay.init decay_half_life) else none,
    link_threshold := link_threshold }

/-- Static method `MemoryGraph.cosine_similarity(a, b)`:
`sum(x * y for x, y in zip(a, b)) / (sqrt(sum(x * x)) * sqrt(sum(x * x)) + 1e-8)`.
The dot product silently truncates to the shorter vector (`zip`); the norms run
over each full vector. -/
noncomputable def MemoryGraph.cosine_similarity (a b : List ℝ) : ℝ :=
  let dot := (List.zipWith (fun x y => x * y) a b).sum
  let norm_a := Real.sqrt ((a.map fun x => x * x).sum)
  let norm_b := Real.sqrt ((b.map fun x => x * x).sum)
  dot / (norm_a * norm_b + 1e-8)

/-- Body of the auto-link loop in `store`: compare the incoming embedding
against one pre-existing node and, when the similarity reaches the threshold,
write the symmetric edge pair (`edges[concept][other] = sim` then
`edges[other][concept] = sim`). -/
noncomputable def autoLinkStep (concept : String) (embedding : List ℝ) (th : ℝ)
    (es : EdgeDict) (other : Node) : EdgeDict :=
  if th ≤ MemoryGraph.cosine_similarity embedding other.embedding then
    edgeSet
      (edgeSet es concept other.concept
        (MemoryGraph.cosine_similarity embedding other.embedding))
      other.concept concept
      (MemoryGraph.cosine_similarity embedding other.embedding)
  else es

/-- Method `MemoryGraph.store(concept, embedding, metadata=None)`:
appends the node, registers the concept with the decay engine (when present),
and auto-links the new node against every pre-existing node (`nodes[:-1]`). -/
noncomputable def MemoryGraph.store (g : MemoryGraph) (concept : String)
    (embedding : List ℝ) (metadata : Option (List (String × String)))
    (wall : ℝ) : MemoryGraph :=
  let node : Node :=
    { concept := concept, embedding := embedding, metadata := metadata.getD [] }
  let decay1 :=
    match g.decay with
    | some d => some (d.register concept none wall)
    | none => none
  let edges1 := g.nodes.foldl (autoLinkStep concept embedding g.link_threshold) g.edges
  { nodes := g.nodes ++ [node], edges := edges1, decay := decay1,
    link_threshold := g.link_threshold }

/-- Freshness factor used by `retrieve`: `decay.strength(concept)` when a decay
engine is present and `use_decay` is true, else `1.0`. -/
noncomputable def freshness (dec : Option MemoryDecay) (ud : Bool) (c : String)
    (wall : ℝ) : ℝ :=
  match dec, ud with
  | some d, true => d.strength c none wall
  | _, _ => 1

/-- Scoring loop of `retrieve`: walk the node list in insertion order, score
each node by `cosine_similarity * freshness`, and — when decay is active —
re-register the node right after scoring it (read reinforces), threading the
mutated decay state into the remaining iterations. -/
noncomputable def scoreNodes (q : List ℝ) (ud : Bool) (wall : ℝ) :
    List Node → Option MemoryDecay → List Scored × Option MemoryDecay
  | [], dec => ([], dec)
  | n :: rest, dec =>
    let sim := MemoryGraph.cosine_similarity q n.embedding
    let str := freshness dec ud n.concept wall
    let dec1 :=
      match dec, ud with
      | some d, true => some (d.register n.concept none wall)
      | d0, _ => d0
    let res := scoreNodes q ud wall rest dec1
    ({ node := n, score := sim * str } :: res.1, res.2)

/-- Python list slicing `l[:k]` for an arbitrary integer `k`: a nonnegative
stop index takes a prefix; a negative one stops `|k|` elements before the end
(clamped at zero) — it does NOT yield the empty list. -/
def pySlice {α : Type} (l : List α) (k : ℤ) : List α :=
  if 0 ≤ k then l.take k.toNat else l.take (l.length - (-k).toNat)

/-- Comparison handed to the sort in `retrieve`: Python
`sorted(key=score, reverse=True)` is a stable descending sort. -/
noncomputable def scoreGE (a b : Scored) : Bool :=
  decide (b.score ≤ a.score)

/-- Method `MemoryGraph.retrieve(query_embedding, top_k=5, use_decay=True)`:
score every node (threading the decay refreshes), stable-sort descending by
score, and return the Python slice `[:top_k]` together with the post-state. -/
noncomputable def MemoryGraph.retrieve (g : MemoryGraph) (query_embedding : List ℝ)
    (top_k : ℤ) (use_decay : Bool) (wall : ℝ) : List Scored × MemoryGraph :=
  let sc := scoreNodes query_embedding use_decay wall g.nodes g.decay
  let sortedL := sc.1.mergeSort scoreGE
  (pySlice sortedL top_k,
   { nodes := g.nodes, edges := g.edges, decay := sc.2,
     link_threshold := g.link_threshold })

/-- Method `MemoryGraph.prune(threshold=0.1)`: with no decay engine, return 0
and leave the graph alone.  Otherwise drop every node whose concept
`should_forget`, delete the removed concepts' adjacency rows, and strip the
removed concepts out of every surviving row.  The decay engine itself —
including `memory_times` — is not touched. -/
noncomputable def MemoryGraph.prune (g : MemoryGraph) (threshold : ℝ) (wall : ℝ) :
    ℕ × MemoryGraph :=
  match g.decay with
  | none => (0, g)
  | some d =>
    let forget := fun (n : Node) => d.should_forget n.concept threshold wall
    let removedConcepts := (g.nodes.filter forget).map (fun n => n.concept)
    let retained := g.nodes.filter (fun n => !(forget n))
    let removed := (g.nodes.filter forget).length
    let edges1 := g.edges.filter
      (fun kv : String × List (String × ℝ) => !(decide (kv.1 ∈ removedConcepts)))
    let edges2 := edges1.map
      (fun kv : String × List (String × ℝ) =>
        (kv.1, kv.2.filter (fun e : String × ℝ => !(decide (e.1 ∈ removedConcepts)))))
    (removed,
     { nodes := retained, edges := edges2, decay := some d,
       link_threshold := g.link_threshold })

/-- Method `MemoryGraph.get_node_by_concept(concept)`: first node whose
concept matches, or `None`. -/
def MemoryGraph.get_node_by_concept (g : MemoryGraph) (concept : String) :
    Option Node :=
  g.nodes.find? (fun n => decide (n.concept = concept))

/-- One comparison of Python `max(nodes, key=...)`: replace the running best
only on a strictly greater key, so the first maximal element wins ties. -/
noncomputable def pyMaxStep (q : List ℝ) (best m : Node) : Node :=
  if MemoryGraph.cosine_similarity q best.embedding <
      MemoryGraph.cosine_similarity q m.embedding then m else best

/-- Python `max(nodes, key=..., default=None)`: left fold of `pyMaxStep`
seeded with the first element. -/
noncomputable def pyMaxByCos (q : List ℝ) : List Node → Option Node
  | [] => none
  | n :: rest => some (rest.foldl (pyMaxStep q) n)

/-- One iteration of the neighbor-selection loop of `traverse`: skip visited
concepts, score the neighbor by `weight * strength` (strength 1.0 without a
decay engine), and keep it on a strict improvement over the running maximum. -/
noncomputable def pickStep (visited : List String) (dec : Option MemoryDecay)
    (wall : ℝ) (acc : Option String × ℝ) (nb : String × ℝ) : Option String × ℝ :=
  if nb.1 ∈ visited then acc
  else
    if acc.2 < nb.2 * (match dec with
        | some d => d.strength nb.1 none wall
        | none => 1) then
      (some nb.1, nb.2 * (match dec with
        | some d => d.strength nb.1 none wall
        | none => 1))
    else acc

/-- Inner neighbor-selection loop of `traverse`: scan the neighbor dict in
insertion order with the running maximum started at `-1` and no selection. -/
noncomputable def pickNext (neighbors : List (String × ℝ)) (visited : List String)
    (dec : Option MemoryDecay) (wall : ℝ) : Option String × ℝ :=
  neighbors.foldl (pickStep visited dec wall) (none, -1)

/-- Stepping loop of `traverse` (`for _ in range(depth - 1)`), with the fuel
made explicit.  The Python guard `if not next_node: break` fires both when no
neighbor was selected and when the selected concept is the falsy empty string.
The function also returns the visit order (Python keeps `visited` as a set;
the list here records the same membership plus the order of first visits). -/
noncomputable def traverseGo (g : MemoryGraph) (wall : ℝ) :
    ℕ → String → List String → List (Option Node) →
    List (Option Node) × List String
  | 0, _, visited, path => (path, visited)
  | fuel + 1, current, visited, path =>
    let neighbors := (dictGet g.edges current).getD []
    match (pickNext neighbors visited g.decay wall).1 with
    | none => (path, visited)
    | some nb =>
      if nb = "" then (path, visited)
      else
        traverseGo g wall fuel nb (visited ++ [nb])
          (path ++ [g.get_node_by_concept nb])

/-- Method `MemoryGraph.traverse(query_embedding, depth=3)`: start from the
best cosine match (first maximal node), then walk greedily for up to
`depth - 1` further steps.  An appended path element is the
`get_node_by_concept` lookup, hence an `Option Node`.  The method mutates no
state, so the graph comes back unchanged. -/
noncomputable def MemoryGraph.traverse (g : MemoryGraph) (query_embedding : List ℝ)
    (depth : ℤ) (wall : ℝ) : List (Option Node) × MemoryGraph :=
  match pyMaxByCos query_embedding g.nodes with
  | none => ([], g)
  | some start =>
    ((traverseGo g wall (depth - 1).toNat start.concept [start.concept]
        [some start]).1, g)

/-! ### Dictionary lemmas -/

theorem dictGet_dictSet_self {α : Type} (d : List (String × α)) (k : String) (v : α) :
    dictGet (dictSet d k v) k = some v := by
  induction d with
  | nil => simp [dictGet, dictSet]
  | cons h t ih =>
    obtain ⟨k1, v1⟩ := h
    by_cases hk : k1 = k
    · simp [dictGet, dictSet, hk]
    · simp [dictGet, dictSet, hk, ih]

theorem dictGet_dictSet_ne {α : Type} (d : List (String × α)) (k k' : String) (v : α)
    (h : k ≠ k') : dictGet (dictSet d k v) k' = dictGet d k' := by
  induction d with
  | nil => simp [dictGet, dictSet, h]
  | cons hd t ih =>
    obtain ⟨k1, v1⟩ := hd
    by_cases hk : k1 = k
    · subst hk
      simp [dictGet, dictSet, h]
    · simp only [dictSet, if_neg hk]
      by_cases hk' : k1 = k'
      · simp [dictGet, hk']
      · simp [dictGet, hk', ih]

/-! ### Length of the retrieval result (claim C2) -/

theorem scoreNodes_fst_length (q : List ℝ) (ud : Bool) (wall : ℝ) (ns : List Node)
    (dec : Option MemoryDecay) : (scoreNodes q ud wall ns dec).1.length = ns.length := by
  induction ns generalizing dec with
  | nil => simp [scoreNodes]
  | cons n rest ih => simp [scoreNodes, ih]

theorem pySlice_length_of_nonneg {α : Type} (l : List α) (k : ℤ) (hk : 0 ≤ k) :
    (pySlice l k).length = min k.toNat l.length := by
  simp [pySlice, hk]

theorem retrieve_fst_length (g : MemoryGraph) (q : List ℝ) (k : ℤ) (ud : Bool)
    (wall : ℝ) (hk : 0 ≤ k) :
    (g.retrieve q k ud wall).1.length = min k.toNat g.nodes.length := by
  simp [MemoryGraph.retrieve, pySlice_length_of_nonneg _ _ hk,
    List.length_mergeSort, scoreNodes_fst_length]

/-- C2 counterexample: the claim promises an empty result for every
`top_k ≤ 0`, but Python's slice `l[:-1]` keeps all but the last element, so a
two-node graph queried with `top_k = -1` returns one entry, not zero. -/
theorem c2_counterexample :
    (MemoryGraph.retrieve
      { nodes := [{ concept := "A", embedding := [1], metadata := [] },
                  { concept := "B", embedding := [1], metadata := [] }],
        edges := [], decay := none, link_threshold := 0.7 }
      [1] (-1) false 0).1 ≠ [] := by
  have hlen : (MemoryGraph.retrieve
      { nodes := [{ concept := "A", embedding := [1], metadata := [] },
                  { concept := "B", embedding := [1], metadata := [] }],
        edges := [], decay := none, link_threshold := 0.7 }
      [1] (-1) false 0).1.length = 1 := by
    simp [MemoryGraph.retrieve, pySlice, List.length_mergeSort, scoreNodes_fst_length]
  intro hnil
  rw [hnil] at hlen
  simp at hlen

/-- C2 (amended): for every `top_k ≥ 0` the result has at most `top_k`
entries, is short only when the graph itself is short, and is empty when
`top_k = 0`; an empty graph yields an empty result for every `top_k`,
negative values included. -/
theorem c2_retrieve_top_k_bounds (g : MemoryGraph) (q : List ℝ) (k : ℤ) (ud : Bool)
    (wall : ℝ) :
    (g.nodes = [] → (g.retrieve q k ud wall).1 = []) ∧
    (0 ≤ k →
      (g.retrieve q k ud wall).1.length ≤ k.toNat ∧
      ((g.retrieve q k ud wall).1.length < k.toNat → g.nodes.length < k.toNat) ∧
      (k = 0 → (g.retrieve q k ud wall).1 = [])) := by
  constructor
  · intro hnil
    simp [MemoryGraph.retrieve, hnil, scoreNodes, pySlice]
  · intro hk
    have hlen := retrieve_fst_length g q k ud wall hk
    refine ⟨?_, ?_, ?_⟩
    · rw [hlen]; exact min_le_left _ _
    · rw [hlen]
      intro hlt
      rcases Nat.lt_or_ge g.nodes.length k.toNat with h | h
      · exact h
      · rw [min_eq_left h] at hlt
        exact absurd hlt (lt_irrefl _)
    · intro hk0
      subst hk0
      simp [MemoryGraph.retrieve, pySlice]

/-- C2 witness: the amended bounds instantiated on a concrete one-node graph
with `top_k = 5`. -/
theorem c2_retrieve_top_k_bounds_witness :
    (([] : List Node) = [] →
      (MemoryGraph.retrieve
        { nodes := [], edges := [], decay := none, link_threshold := 0.7 }
        [1] 5 false 0).1 = []) ∧
    (0 ≤ (5 : ℤ) →
      (MemoryGraph.retrieve
        { nodes := [], edges := [], decay := none, link_threshold := 0.7 }
        [1] 5 false 0).1.length ≤ (5 : ℤ).toNat ∧
      ((MemoryGraph.retrieve
        { nodes := [], edges := [], decay := none, link_threshold := 0.7 }
        [1] 5 false 0).1.length < (5 : ℤ).toNat →
        ([] : List Node).length < (5 : ℤ).toNat) ∧
      ((5 : ℤ) = 0 →
        (MemoryGraph.retrieve
          { nodes := [], edges := [], decay := none, link_threshold := 0.7 }
          [1] 5 false 0).1 = [])) :=
  c2_retrieve_top_k_bounds
    { nodes := [], edges := [], decay := none, link_threshold := 0.7 } [1] 5 false 0

/-! ### Decay-state threading through the retrieval loop -/

theorem orWall_none (wall : ℝ) : orWall none wall = wall := rfl

/-- After the scoring loop runs with decay active, the resulting decay state
keeps the half-life, holds `wall` as the timestamp of every scored concept,
and is untouched on all other concepts. -/
theorem scoreNodes_decay_spec (q : List ℝ) (wall : ℝ) (ns : List Node)
    (d : MemoryDecay) :
    ∃ d', (scoreNodes q true wall ns (some d)).2 = some d' ∧
      d'.half_life = d.half_life ∧
      (∀ c, c ∈ ns.map Node.concept → dictGet d'.memory_times c = some wall) ∧
      (∀ c, c ∉ ns.map Node.concept →
        dictGet d'.memory_times c = dictGet d.memory_times c) := by
  induction ns generalizing d with
  | nil =>
    exact ⟨d, rfl, rfl, by simp, fun c _ => rfl⟩
  | cons n rest ih =>
    obtain ⟨d', h2, hhl, hin, hout⟩ := ih (d.register n.concept none wall)
    refine ⟨d', ?_, ?_, ?_, ?_⟩
    · simpa [scoreNodes] using h2
    · simpa [MemoryDecay.register] using hhl
    · intro c hc
      rw [List.map_cons] at hc
      rcases List.mem_cons.mp hc with hc1 | hc2
      · by_cases hr : c ∈ rest.map Node.concept
        · exact hin c hr
        · rw [hout c hr, MemoryDecay.register, hc1]
          simpa [orWall] using dictGet_dictSet_self d.memory_times n.concept wall
      · exact hin c hc2
    · intro c hc
      rw [List.map_cons] at hc
      have hcn : c ≠ n.concept := fun h => hc (by rw [h]; exact List.mem_cons_self _ _)
      have hcr : c ∉ rest.map Node.concept := fun h => hc (List.mem_cons_of_mem _ h)
      rw [hout c hcr, MemoryDecay.register]
      exact dictGet_dictSet_ne d.memory_times n.concept c _ (fun h => hcn h.symm)

/-! ### Claim C4: decay timestamps after prune -/

/-- C4 counterexample: with `half_life = 10`, concept `A` registered at time 0
and the clock at 10, `prune(0.6)` removes the entry (strength 0.5 < 0.6), yet
the decay engine still holds the timestamp `A ↦ 0` — `prune` never touches
`memory_times`, contradicting the claim that removed identities are dropped. -/
theorem c4_counterexample :
    (MemoryGraph.prune
      { nodes := [{ concept := "A", embedding := [1], metadata := [] }],
        edges := [],
        decay := some { half_life := 10, memory_times := [("A", 0)] },
        link_threshold := 0.7 } 0.6 10).1 = 1 ∧
    ∃ d, (MemoryGraph.prune
      { nodes := [{ concept := "A", embedding := [1], metadata := [] }],
        edges := [],
        decay := some { half_life := 10, memory_times := [("A", 0)] },
        link_threshold := 0.7 } 0.6 10).2.decay = some d ∧
      dictGet d.memory_times "A" = some 0 := by
  have hsf : MemoryDecay.should_forget
      { half_life := 10, memory_times := [("A", 0)] } "A" 0.6 10 = true := by
    rw [MemoryDecay.should_forget, decide_eq_true_eq, MemoryDecay.strength]
    simp only [orWall, dictGet]
    norm_num [Real.rpow_one]
  refine ⟨?_, ⟨{ half_life := 10, memory_times := [("A", 0)] }, ?_, ?_⟩⟩
  · simp [MemoryGraph.prune, hsf]
  · simp [MemoryGraph.prune]
  · simp [dictGet]

/-- C4 (amended): `prune` leaves the decay engine — in particular the
`memory_times` map — completely unchanged, so the timestamps of removed
identities are retained rather than deleted. -/
theorem c4_prune_keeps_decay_state (g : MemoryGraph) (threshold wall : ℝ) :
    (g.prune threshold wall).2.decay = g.decay := by
  rcases hd : g.decay with _ | d
  · simp [MemoryGraph.prune, hd]
  · simp [MemoryGraph.prune, hd]

/-! ### Claim C5: the `timestamp=0` registration scenario -/

/-- C5 failing input, evaluated on the embedding: with `half_life = 10`, the
call `register("m", timestamp=0)` executed at wall-clock time 100 stores 100,
not 0 — the Python idiom `timestamp or time.time()` treats the float `0.0` as
absent — so `strength("m", now=10)` is `0.5 ^ ((10 - 100) / 10) = 512` rather
than the `0.5` the scenario promises. -/
theorem c5_register_zero_timestamp_bug :
    ((MemoryDecay.init 10).register "m" (some 0) 100).strength "m" (some 10) 100
      = 512 := by
  rw [MemoryDecay.strength]
  simp only [MemoryDecay.init, MemoryDecay.register, orWall, dictGet]
  norm_num

/-! ### Claim C6: who refreshes timestamps -/

/-- C6 counterexample: `traverse` visits the entry `A` (it is the returned
path head) at wall-clock time 10, yet the decay state after the call still
maps `A` to its old timestamp 0 — traversal does not reinforce, contradicting
the claim that every access during traversal refreshes the timestamp. -/
theorem c6_counterexample :
    (MemoryGraph.traverse
      { nodes := [{ concept := "A", embedding := [1], metadata := [] }],
        edges := [],
        decay := some { half_life := 10, memory_times := [("A", 0)] },
        link_threshold := 0.7 } [1] 1 10).1
      = [some { concept := "A", embedding := [1], metadata := [] }] ∧
    ∃ d, (MemoryGraph.traverse
      { nodes := [{ concept := "A", embedding := [1], metadata := [] }],
        edges := [],
        decay := some { half_life := 10, memory_times := [("A", 0)] },
        link_threshold := 0.7 } [1] 1 10).2.decay = some d ∧
      dictGet d.memory_times "A" = some 0 ∧ (0 : ℝ) ≠ 10 := by
  refine ⟨?_, ⟨{ half_life := 10, memory_times := [("A", 0)] }, ?_, ?_, by norm_num⟩⟩
  · simp [MemoryGraph.traverse, pyMaxByCos, traverseGo]
  · simp [MemoryGraph.traverse, pyMaxByCos]
  · simp [dictGet]

/-- C6 (amended): with decay enabled and `use_decay` true, `retrieve` refreshes
the timestamp of every scored entry to the current time, but `traverse`
mutates nothing: the graph — decay state included — comes back unchanged. -/
theorem c6_retrieve_refreshes_traverse_does_not (g : MemoryGraph) (q : List ℝ)
    (k : ℤ) (depth : ℤ) (wall : ℝ) (d : MemoryDecay) (hd : g.decay = some d) :
    (∃ d', (g.retrieve q k true wall).2.decay = some d' ∧
      ∀ n ∈ g.nodes, dictGet d'.memory_times n.concept = some wall) ∧
    (g.traverse q depth wall).2 = g := by
  constructor
  · obtain ⟨d', h2, _, hin, _⟩ := scoreNodes_decay_spec q wall g.nodes d
    refine ⟨d', ?_, ?_⟩
    · simp [MemoryGraph.retrieve, hd, h2]
    · intro n hn
      exact hin n.concept (List.mem_map_of_mem Node.concept hn)
  · rw [MemoryGraph.traverse]
    rcases pyMaxByCos q g.nodes with _ | s
    · rfl
    · rfl

/-- C6 witness: the amended statement instantiated on a concrete one-node
graph with decay enabled, queried at wall-clock time 10. -/
theorem c6_retrieve_refreshes_traverse_does_not_witness :
    (∃ d', (MemoryGraph.retrieve
      { nodes := [{ concept := "A", embedding := [1], metadata := [] }],
        edges := [],
        decay := some { half_life := 10, memory_times := [("A", 0)] },
        link_threshold := 0.7 } [1] 5 true 10).2.decay = some d' ∧
      ∀ n ∈ ([{ concept := "A", embedding := [1], metadata := [] }] : List Node),
        dictGet d'.memory_times n.concept = some 10) ∧
    (MemoryGraph.traverse
      { nodes := [{ concept := "A", embedding := [1], metadata := [] }],
        edges := [],
        decay := some { half_life := 10, memory_times := [("A", 0)] },
        link_threshold := 0.7 } [1] 3 10).2
      = { nodes := [{ concept := "A", embedding := [1], metadata := [] }],
          edges := [],
          decay := some { half_life := 10, memory_times := [("A", 0)] },
          link_threshold := 0.7 } :=
  c6_retrieve_refreshes_traverse_does_not
    ({ nodes := [{ concept := "A", embedding := [1], metadata := [] }],
       edges := [],
       decay := some { half_life := 10, memory_times := [("A", 0)] },
       link_threshold := 0.7 } : MemoryGraph) [1] 5 3 10
    ({ half_life := 10, memory_times := [("A", 0)] } : MemoryDecay) rfl

/-! ### Claim C9: configuration validation -/

/-- C9 counterexample: a decay engine constructed with `half_life = -10` is
accepted verbatim — nothing rejects the configuration — and a later strength
query returns 2, outside the promised [0, 1] range. -/
theorem c9_counterexample :
    (MemoryDecay.init (-10)).half_life = -10 ∧
    ((MemoryDecay.init (-10)).register "m" (some 5) 0).strength "m" (some 15) 0
      = 2 := by
  refine ⟨rfl, ?_⟩
  rw [MemoryDecay.strength]
  simp only [MemoryDecay.init, MemoryDecay.register, orWall, dictGet]
  norm_num

/-- C9 (amended): neither constructor validates anything — `MemoryDecay`
stores any half-life verbatim (non-positive included) and `MemoryGraph`
stores any link threshold and builds its engine from the given half-life
unchecked. -/
theorem c9_constructors_do_not_validate (hl lt : ℝ) (ud : Bool) :
    (MemoryDecay.init hl).half_life = hl ∧
    (MemoryDecay.init hl).memory_times = [] ∧
    (MemoryGraph.init ud hl lt).link_threshold = lt ∧
    (MemoryGraph.init true hl lt).decay = some (MemoryDecay.init hl) ∧
    (MemoryGraph.init false hl lt).decay = none := by
  exact ⟨rfl, rfl, rfl, rfl, rfl⟩

/-! ### Edge-dictionary lemmas (claim C3) -/

theorem edgeGet_edgeSet (es : EdgeDict) (k1 k2 : String) (w : ℝ) (a b : String) :
    edgeGet (edgeSet es k1 k2 w) a b =
      if a = k1 ∧ b = k2 then some w else edgeGet es a b := by
  by_cases ha : a = k1
  · subst ha
    rw [edgeSet]
    simp only [edgeGet, dictGet_dictSet_self]
    by_cases hb : b = k2
    · subst hb
      rw [dictGet_dictSet_self]
      simp
    · rw [dictGet_dictSet_ne _ _ _ _ (fun h => hb h.symm),
        if_neg (fun h => hb h.2)]
      rcases h : dictGet es a with _ | inner
      · simp [dictGet]
      · simp
  · rw [edgeSet]
    simp only [edgeGet, dictGet_dictSet_ne _ _ _ _ (fun h => ha h.symm)]
    rw [if_neg (fun h => ha h.1)]

theorem foldl_autoLink_frame (c : String) (v : List ℝ) (th : ℝ) (others : List Node)
    (es0 : EdgeDict) (a b : String) (ha : a ≠ c) (hb : b ≠ c) :
    edgeGet (others.foldl (autoLinkStep c v th) es0) a b = edgeGet es0 a b := by
  induction others generalizing es0 with
  | nil => rfl
  | cons o rest ih =>
    rw [List.foldl_cons, ih, autoLinkStep]
    by_cases hs : th ≤ MemoryGraph.cosine_similarity v o.embedding
    · rw [if_pos hs, edgeGet_edgeSet, if_neg (fun h => hb h.2),
        edgeGet_edgeSet, if_neg (fun h => ha h.1)]
    · rw [if_neg hs]

theorem foldl_autoLink_row_frame (c : String) (v : List ℝ) (th : ℝ)
    (others : List Node) (es0 : EdgeDict) (b : String)
    (hc : c ∉ others.map Node.concept) (hb : b ≠ c)
    (hbo : b ∉ others.map Node.concept) :
    edgeGet (others.foldl (autoLinkStep c v th) es0) c b = edgeGet es0 c b := by
  induction others generalizing es0 with
  | nil => rfl
  | cons o rest ih =>
    rw [List.map_cons] at hc hbo
    have hco : c ≠ o.concept := fun h => hc (h ▸ List.mem_cons_self _ _)
    have hbo1 : b ≠ o.concept := fun h => hbo (h ▸ List.mem_cons_self _ _)
    have hcr : c ∉ rest.map Node.concept := fun h => hc (List.mem_cons_of_mem _ h)
    have hbr : b ∉ rest.map Node.concept := fun h => hbo (List.mem_cons_of_mem _ h)
    rw [List.foldl_cons, ih _ hcr hbr, autoLinkStep]
    by_cases hs : th ≤ MemoryGraph.cosine_similarity v o.embedding
    · rw [if_pos hs, edgeGet_edgeSet, if_neg (fun h => hco h.1),
        edgeGet_edgeSet, if_neg (fun h => hbo1 h.2)]
    · rw [if_neg hs]

theorem foldl_autoLink_col_frame (c : String) (v : List ℝ) (th : ℝ)
    (others : List Node) (es0 : EdgeDict) (a : String)
    (hc : c ∉ others.map Node.concept) (ha : a ≠ c)
    (hao : a ∉ others.map Node.concept) :
    edgeGet (others.foldl (autoLinkStep c v th) es0) a c = edgeGet es0 a c := by
  induction others generalizing es0 with
  | nil => rfl
  | cons o rest ih =>
    rw [List.map_cons] at hc hao
    have hco : c ≠ o.concept := fun h => hc (h ▸ List.mem_cons_self _ _)
    have hao1 : a ≠ o.concept := fun h => hao (h ▸ List.mem_cons_self _ _)
    have hcr : c ∉ rest.map Node.concept := fun h => hc (List.mem_cons_of_mem _ h)
    have har : a ∉ rest.map Node.concept := fun h => hao (List.mem_cons_of_mem _ h)
    rw [List.foldl_cons, ih _ hcr har, autoLinkStep]
    by_cases hs : th ≤ MemoryGraph.cosine_similarity v o.embedding
    · rw [if_pos hs, edgeGet_edgeSet, if_neg (fun h => hao1 h.1),
        edgeGet_edgeSet, if_neg (fun h => ha h.1)]
    · rw [if_neg hs]

theorem foldl_autoLink_new_row (c : String) (v : List ℝ) (th : ℝ)
    (others : List Node) (es0 : EdgeDict)
    (hc : c ∉ others.map Node.concept) (hnd : (others.map Node.concept).Nodup)
    (o : Node) (ho : o ∈ others) :
    edgeGet (others.foldl (autoLinkStep c v th) es0) c o.concept =
      if th ≤ MemoryGraph.cosine_similarity v o.embedding
      then some (MemoryGraph.cosine_similarity v o.embedding)
      else edgeGet es0 c o.concept := by
  induction others generalizing es0 with
  | nil => cases ho
  | cons o1 rest ih =>
    rw [List.map_cons] at hc hnd
    have hc1 : c ≠ o1.concept := fun h => hc (h ▸ List.mem_cons_self _ _)
    have hcr : c ∉ rest.map Node.concept := fun h => hc (List.mem_cons_of_mem _ h)
    obtain ⟨ho1r, hndr⟩ := List.nodup_cons.mp hnd
    rcases List.mem_cons.mp ho with h1 | hor
    · subst h1
      rw [List.foldl_cons,
        foldl_autoLink_row_frame c v th rest _ o.concept hcr
          (fun h => hc1 h.symm) ho1r,
        autoLinkStep]
      by_cases hs : th ≤ MemoryGraph.cosine_similarity v o.embedding
      · rw [if_pos hs, edgeGet_edgeSet, if_neg (fun h => hc1 h.1),
          edgeGet_edgeSet,
          if_pos (show c = c ∧ o.concept = o.concept from ⟨rfl, rfl⟩), if_pos hs]
      · rw [if_neg hs, if_neg hs]
    · have hoo : o.concept ≠ o1.concept :=
        fun h => ho1r (h ▸ List.mem_map_of_mem Node.concept hor)
      rw [List.foldl_cons, ih _ hcr hndr hor]
      by_cases hs : th ≤ MemoryGraph.cosine_similarity v o.embedding
      · rw [if_pos hs, if_pos hs]
      · rw [if_neg hs, if_neg hs, autoLinkStep]
        by_cases hs1 : th ≤ MemoryGraph.cosine_similarity v o1.embedding
        · rw [if_pos hs1, edgeGet_edgeSet, if_neg (fun h => hc1 h.1),
            edgeGet_edgeSet, if_neg (fun h => hoo h.2)]
        · rw [if_neg hs1]

theorem foldl_autoLink_new_col (c : String) (v : List ℝ) (th : ℝ)
    (others : List Node) (es0 : EdgeDict)
    (hc : c ∉ others.map Node.concept) (hnd : (others.map Node.concept).Nodup)
    (o : Node) (ho : o ∈ others) :
    edgeGet (others.foldl (autoLinkStep c v th) es0) o.concept c =
      if th ≤ MemoryGraph.cosine_similarity v o.embedding
      then some (MemoryGraph.cosine_similarity v o.embedding)
      else edgeGet es0 o.concept c := by
  induction others generalizing es0 with
  | nil => cases ho
  | cons o1 rest ih =>
    rw [List.map_cons] at hc hnd
    have hc1 : c ≠ o1.concept := fun h => hc (h ▸ List.mem_cons_self _ _)
    have hcr : c ∉ rest.map Node.concept := fun h => hc (List.mem_cons_of_mem _ h)
    obtain ⟨ho1r, hndr⟩ := List.nodup_cons.mp hnd
    rcases List.mem_cons.mp ho with h1 | hor
    · subst h1
      rw [List.foldl_cons,
        foldl_autoLink_col_frame c v th rest _ o.concept hcr
          (fun h => hc1 h.symm) ho1r,
        autoLinkStep]
      by_cases hs : th ≤ MemoryGraph.cosine_similarity v o.embedding
      · rw [if_pos hs, edgeGet_edgeSet,
          if_pos (show o.concept = o.concept ∧ c = c from ⟨rfl, rfl⟩), if_pos hs]
      · rw [if_neg hs, if_neg hs]
    · have hoo : o.concept ≠ o1.concept :=
        fun h => ho1r (h ▸ List.mem_map_of_mem Node.concept hor)
      have hocc : o.concept ≠ c :=
        fun h => hc (h ▸ List.mem_cons_of_mem _ (List.mem_map_of_mem Node.concept hor))
      rw [List.foldl_cons, ih _ hcr hndr hor]
      by_cases hs : th ≤ MemoryGraph.cosine_similarity v o.embedding
      · rw [if_pos hs, if_pos hs]
      · rw [if_neg hs, if_neg hs, autoLinkStep]
        by_cases hs1 : th ≤ MemoryGraph.cosine_similarity v o1.embedding
        · rw [if_pos hs1, edgeGet_edgeSet, if_neg (fun h => hoo h.1),
            edgeGet_edgeSet, if_neg (fun h => hocc h.1)]
        · rw [if_neg hs1]

theorem dictGet_filterKeys {α : Type} (l : List (String × α)) (R : List String)
    (k : String) :
    dictGet (l.filter (fun e => !(decide (e.1 ∈ R)))) k =
      if k ∈ R then none else dictGet l k := by
  induction l with
  | nil =>
    rcases em (k ∈ R) with h | h
    · simp [dictGet, h]
    · simp [dictGet, h]
  | cons kv t ih =>
    obtain ⟨k1, v1⟩ := kv
    by_cases h1 : k1 ∈ R
    · rw [List.filter_cons, if_neg (by simpa using h1), ih]
      rcases em (k ∈ R) with h | h
      · rw [if_pos h, if_pos h]
      · have hk : k1 ≠ k := fun he => h (he ▸ h1)
        rw [if_neg h, if_neg h]
        simp [dictGet, hk]
    · rw [List.filter_cons, if_pos (by simpa using h1)]
      by_cases hk : k1 = k
      · subst hk
        simp [dictGet, h1]
      · simp only [dictGet, if_neg hk]
        rw [ih]

theorem dictGet_mapValues {α β : Type} (l : List (String × α)) (f : α → β)
    (k : String) :
    dictGet (l.map (fun kv => (kv.1, f kv.2))) k = (dictGet l k).map f := by
  induction l with
  | nil => rfl
  | cons kv t ih =>
    obtain ⟨k1, v1⟩ := kv
    by_cases hk : k1 = k
    · simp [dictGet, hk]
    · simp [dictGet, hk, ih]

/-- C3: storing a fresh identity links it symmetrically to exactly the
existing entries whose similarity reaches `link_threshold` (with the
insertion-time similarity as weight) and touches no other pair; and after any
prune, no edge refers to a removed concept in either direction while every
edge between surviving concepts is intact.  Identity collisions (two entries
sharing a concept string, an open question in the source) are excluded by the
freshness and no-duplicate hypotheses. -/
theorem c3_store_autolink_and_prune_consistency (g : MemoryGraph) (wall : ℝ) :
    (∀ concept v m,
      concept ∉ g.nodes.map Node.concept →
      (g.nodes.map Node.concept).Nodup →
      dictGet g.edges concept = none →
      (∀ k, edgeGet g.edges k concept = none) →
      (∀ o ∈ g.nodes,
        edgeGet (g.store concept v m wall).edges concept o.concept =
          (if g.link_threshold ≤ MemoryGraph.cosine_similarity v o.embedding
           then some (MemoryGraph.cosine_similarity v o.embedding) else none) ∧
        edgeGet (g.store concept v m wall).edges o.concept concept =
          (if g.link_threshold ≤ MemoryGraph.cosine_similarity v o.embedding
           then some (MemoryGraph.cosine_similarity v o.embedding) else none)) ∧
      (∀ a b, a ≠ concept → b ≠ concept →
        edgeGet (g.store concept v m wall).edges a b = edgeGet g.edges a b)) ∧
    (∀ threshold d, g.decay = some d →
      (∀ c ∈ (g.nodes.filter
          (fun n => d.should_forget n.concept threshold wall)).map Node.concept,
        dictGet (g.prune threshold wall).2.edges c = none ∧
        ∀ a, edgeGet (g.prune threshold wall).2.edges a c = none) ∧
      (∀ a b,
        a ∉ (g.nodes.filter
          (fun n => d.should_forget n.concept threshold wall)).map Node.concept →
        b ∉ (g.nodes.filter
          (fun n => d.should_forget n.concept threshold wall)).map Node.concept →
        edgeGet (g.prune threshold wall).2.edges a b = edgeGet g.edges a b)) := by
  constructor
  · intro concept v m hfresh hnd hrow hcol
    have hedges : (g.store concept v m wall).edges =
        g.nodes.foldl (autoLinkStep concept v g.link_threshold) g.edges := rfl
    constructor
    · intro o ho
      constructor
      · rw [hedges, foldl_autoLink_new_row concept v g.link_threshold g.nodes
          g.edges hfresh hnd o ho]
        by_cases hs : g.link_threshold ≤ MemoryGraph.cosine_similarity v o.embedding
        · rw [if_pos hs, if_pos hs]
        · rw [if_neg hs, if_neg hs, edgeGet, hrow]
      · rw [hedges, foldl_autoLink_new_col concept v g.link_threshold g.nodes
          g.edges hfresh hnd o ho]
        by_cases hs : g.link_threshold ≤ MemoryGraph.cosine_similarity v o.embedding
        · rw [if_pos hs, if_pos hs]
        · rw [if_neg hs, if_neg hs, hcol o.concept]
    · intro a b ha hb
      rw [hedges, foldl_autoLink_frame concept v g.link_threshold g.nodes g.edges
        a b ha hb]
  · intro threshold d hd
    have hedges2 : (g.prune threshold wall).2.edges =
        (g.edges.filter
          (fun kv : String × List (String × ℝ) =>
            !(decide (kv.1 ∈ (g.nodes.filter
              (fun n => d.should_forget n.concept threshold wall)).map Node.concept)))).map
          (fun kv : String × List (String × ℝ) =>
            (kv.1, kv.2.filter (fun e : String × ℝ =>
              !(decide (e.1 ∈ (g.nodes.filter
                (fun n => d.should_forget n.concept threshold wall)).map Node.concept))))) := by
      rw [MemoryGraph.prune, hd]
    constructor
    · intro c hc
      constructor
      · rw [hedges2, dictGet_mapValues, dictGet_filterKeys, if_pos hc]
        rfl
      · intro a
        rw [hedges2, edgeGet, dictGet_mapValues, dictGet_filterKeys]
        rcases em (a ∈ (g.nodes.filter
            (fun n => d.should_forget n.concept threshold wall)).map Node.concept)
          with hmem | hmem
        · rw [if_pos hmem]
          rfl
        · rw [if_neg hmem]
          rcases hga : dictGet g.edges a with _ | inner
          · rfl
          · simp only [Option.map_some']
            rw [dictGet_filterKeys, if_pos hc]
    · intro a b ha hb
      rw [hedges2, edgeGet, dictGet_mapValues, dictGet_filterKeys, if_neg ha,
        edgeGet]
      rcases hga : dictGet g.edges a with _ | inner
      · rfl
      · simp only [Option.map_some']
        rw [dictGet_filterKeys, if_neg hb]

/-- C3 witness: a concrete three-identity scenario.  The graph holds `B` with
embedding `[1, 0]` and `Z` with `[0, 1]` (decay timestamps both 0,
`half_life = 10`, `link_threshold = 0.5`); storing `A` with `[1, 0]` links it
to `B` (similarity `1 / (1 + 1e-8) ≥ 0.5`) and not to `Z` (similarity
`0 < 0.5`), and pruning at threshold 0.6 with the clock at 10 removes both
old concepts and scrubs the adjacency accordingly. -/
theorem c3_store_autolink_and_prune_consistency_witness :
    (∀ o ∈ ([{ concept := "B", embedding := [1, 0], metadata := [] },
             { concept := "Z", embedding := [0, 1], metadata := [] }] : List Node),
      edgeGet ((MemoryGraph.store
        { nodes := [{ concept := "B", embedding := [1, 0], metadata := [] },
                    { concept := "Z", embedding := [0, 1], metadata := [] }],
          edges := [],
          decay := some { half_life := 10, memory_times := [("B", 0), ("Z", 0)] },
          link_threshold := 0.5 } "A" [1, 0] none 10).edges) "A" o.concept =
        (if (0.5 : ℝ) ≤ MemoryGraph.cosine_similarity [1, 0] o.embedding
         then some (MemoryGraph.cosine_similarity [1, 0] o.embedding) else none) ∧
      edgeGet ((MemoryGraph.store
        { nodes := [{ concept := "B", embedding := [1, 0], metadata := [] },
                    { concept := "Z", embedding := [0, 1], metadata := [] }],
          edges := [],
          decay := some { half_life := 10, memory_times := [("B", 0), ("Z", 0)] },
          link_threshold := 0.5 } "A" [1, 0] none 10).edges) o.concept "A" =
        (if (0.5 : ℝ) ≤ MemoryGraph.cosine_similarity [1, 0] o.embedding
         then some (MemoryGraph.cosine_similarity [1, 0] o.embedding) else none)) ∧
    (∀ c ∈ (([{ concept := "B", embedding := [1, 0], metadata := [] },
              { concept := "Z", embedding := [0, 1], metadata := [] }] : List Node).filter
        (fun n => MemoryDecay.should_forget
          { half_life := 10, memory_times := [("B", 0), ("Z", 0)] }
          n.concept 0.6 10)).map Node.concept,
      dictGet ((MemoryGraph.prune
        { nodes := [{ concept := "B", embedding := [1, 0], metadata := [] },
                    { concept := "Z", embedding := [0, 1], metadata := [] }],
          edges := [],
          decay := some { half_life := 10, memory_times := [("B", 0), ("Z", 0)] },
          link_threshold := 0.5 } 0.6 10).2.edges) c = none ∧
      ∀ a, edgeGet ((MemoryGraph.prune
        { nodes := [{ concept := "B", embedding := [1, 0], metadata := [] },
                    { concept := "Z", embedding := [0, 1], metadata := [] }],
          edges := [],
          decay := some { half_life := 10, memory_times := [("B", 0), ("Z", 0)] },
          link_threshold := 0.5 } 0.6 10).2.edges) a c = none) := by
  have h := c3_store_autolink_and_prune_consistency
    ({ nodes := [{ concept := "B", embedding := [1, 0], metadata := [] },
                 { concept := "Z", embedding := [0, 1], metadata := [] }],
       edges := [],
       decay := some { half_life := 10, memory_times := [("B", 0), ("Z", 0)] },
       link_threshold := 0.5 } : MemoryGraph) 10
  refine ⟨(h.1 "A" [1, 0] none ?_ ?_ rfl (fun k => rfl)).1,
    (h.2 0.6 { half_life := 10, memory_times := [("B", 0), ("Z", 0)] } rfl).1⟩
  · simp
  · simp

/-! ### Claim C10: totality of the similarity computation -/

theorem dot_zero_left (a b : List ℝ) (ha : ∀ x ∈ a, x = 0) :
    (List.zipWith (fun x y => x * y) a b).sum = 0 := by
  induction a generalizing b with
  | nil => simp
  | cons x xs ih =>
    cases b with
    | nil => simp
    | cons y ys =>
      rw [List.zipWith_cons_cons, List.sum_cons, ha x (List.mem_cons_self _ _),
        zero_mul, zero_add]
      exact ih ys (fun z hz => ha z (List.mem_cons_of_mem _ hz))

theorem dot_zero_right (a b : List ℝ) (hb : ∀ x ∈ b, x = 0) :
    (List.zipWith (fun x y => x * y) a b).sum = 0 := by
  induction a generalizing b with
  | nil => simp
  | cons x xs ih =>
    cases b with
    | nil => simp
    | cons y ys =>
      rw [List.zipWith_cons_cons, List.sum_cons, hb y (List.mem_cons_self _ _),
        mul_zero, zero_add]
      exact ih ys (fun z hz => hb z (List.mem_cons_of_mem _ hz))

/-- C10: `cosine_similarity` is total — its denominator is never zero, making
the division-by-zero branch unreachable; the dot product ranges over exactly
the first `min(len a, len b)` paired components while the norms cover each
full vector; and an all-zero vector on either side yields similarity 0. -/
theorem c10_cosine_similarity_total (a b : List ℝ) :
    (Real.sqrt ((a.map fun x => x * x).sum) *
        Real.sqrt ((b.map fun x => x * x).sum) + 1e-8 ≠ 0) ∧
    (MemoryGraph.cosine_similarity a b =
      (List.zipWith (fun x y => x * y)
          (a.take (min a.length b.length)) (b.take (min a.length b.length))).sum /
        (Real.sqrt ((a.map fun x => x * x).sum) *
          Real.sqrt ((b.map fun x => x * x).sum) + 1e-8)) ∧
    ((∀ x ∈ a, x = 0) → MemoryGraph.cosine_similarity a b = 0) ∧
    ((∀ x ∈ b, x = 0) → MemoryGraph.cosine_similarity a b = 0) := by
  have hden : (0 : ℝ) < Real.sqrt ((a.map fun x => x * x).sum) *
      Real.sqrt ((b.map fun x => x * x).sum) + 1e-8 := by positivity
  refine ⟨ne_of_gt hden, ?_, ?_, ?_⟩
  · have h1 : List.zipWith (fun x y : ℝ => x * y)
        (a.take (min a.length b.length)) (b.take (min a.length b.length)) =
        List.zipWith (fun x y : ℝ => x * y) a b := by
      rw [← List.take_zipWith]
      exact List.take_of_length_le (le_of_eq (List.length_zipWith _ _ _))
    rw [h1]
    rfl
  · intro ha
    simp only [MemoryGraph.cosine_similarity]
    rw [dot_zero_left a b ha, zero_div]
  · intro hb
    simp only [MemoryGraph.cosine_similarity]
    rw [dot_zero_right a b hb, zero_div]

/-- C10 witness: the theorem instantiated at the all-zero vector `[0, 0]`
against `[1, 2]`, with both zero-vector hypotheses discharged. -/
theorem c10_cosine_similarity_total_witness :
    MemoryGraph.cosine_similarity [0, 0] [1, 2] = 0 ∧
    MemoryGraph.cosine_similarity [1, 2] [0, 0] = 0 :=
  ⟨(c10_cosine_similarity_total [0, 0] [1, 2]).2.2.1 (by norm_num),
   (c10_cosine_similarity_total [1, 2] [0, 0]).2.2.2 (by norm_num)⟩

/-! ### Cauchy-Schwarz for the list-level dot product (claim C8) -/

theorem sum_map_sq_nonneg (a : List ℝ) : 0 ≤ (a.map fun x => x * x).sum := by
  apply List.sum_nonneg
  intro x hx
  obtain ⟨y, _, rfl⟩ := List.mem_map.mp hx
  exact mul_self_nonneg y

theorem zipWith_mul_sum_eq_finset (a b : List ℝ) :
    (List.zipWith (fun x y => x * y) a b).sum =
      ∑ i ∈ Finset.range (min a.length b.length), a.getD i 0 * b.getD i 0 := by
  induction a generalizing b with
  | nil => simp
  | cons x xs ih =>
    cases b with
    | nil => simp
    | cons y ys =>
      rw [List.zipWith_cons_cons, List.sum_cons, ih ys, List.length_cons,
        List.length_cons, Nat.succ_min_succ, Finset.sum_range_succ']
      simp only [List.getD_cons_succ, List.getD_cons_zero]
      ring

theorem map_sq_sum_eq_finset (a : List ℝ) :
    (a.map fun x => x * x).sum =
      ∑ i ∈ Finset.range a.length, (a.getD i 0) ^ 2 := by
  induction a with
  | nil => simp
  | cons x xs ih =>
    rw [List.map_cons, List.sum_cons, ih, List.length_cons, Finset.sum_range_succ']
    simp only [List.getD_cons_succ, List.getD_cons_zero]
    ring

theorem dot_sq_le (a b : List ℝ) :
    ((List.zipWith (fun x y => x * y) a b).sum) ^ 2 ≤
      ((a.map fun x => x * x).sum) * ((b.map fun x => x * x).sum) := by
  rw [zipWith_mul_sum_eq_finset, map_sq_sum_eq_finset, map_sq_sum_eq_finset]
  calc (∑ i ∈ Finset.range (min a.length b.length), a.getD i 0 * b.getD i 0) ^ 2
      ≤ (∑ i ∈ Finset.range (min a.length b.length), (a.getD i 0) ^ 2) *
        (∑ i ∈ Finset.range (min a.length b.length), (b.getD i 0) ^ 2) :=
        Finset.sum_mul_sq_le_sq_mul_sq _ _ _
    _ ≤ (∑ i ∈ Finset.range a.length, (a.getD i 0) ^ 2) *
        (∑ i ∈ Finset.range b.length, (b.getD i 0) ^ 2) := by
        apply mul_le_mul
        · exact Finset.sum_le_sum_of_subset_of_nonneg
            (Finset.range_subset.mpr (min_le_left _ _)) (fun i _ _ => sq_nonneg _)
        · exact Finset.sum_le_sum_of_subset_of_nonneg
            (Finset.range_subset.mpr (min_le_right _ _)) (fun i _ _ => sq_nonneg _)
        · exact Finset.sum_nonneg (fun i _ => sq_nonneg _)
        · exact Finset.sum_nonneg (fun i _ => sq_nonneg _)

theorem abs_dot_le (a b : List ℝ) :
    |(List.zipWith (fun x y => x * y) a b).sum| ≤
      Real.sqrt ((a.map fun x => x * x).sum) *
        Real.sqrt ((b.map fun x => x * x).sum) := by
  have h := Real.sqrt_le_sqrt (dot_sq_le a b)
  rw [Real.sqrt_sq_eq_abs, Real.sqrt_mul (sum_map_sq_nonneg a)] at h
  exact h

theorem cosine_abs_le_one (a b : List ℝ) :
    |MemoryGraph.cosine_similarity a b| ≤ 1 := by
  have hD : (0 : ℝ) < Real.sqrt ((a.map fun x => x * x).sum) *
      Real.sqrt ((b.map fun x => x * x).sum) + 1e-8 := by positivity
  simp only [MemoryGraph.cosine_similarity]
  rw [abs_div, abs_of_pos hD, div_le_one hD]
  exact (abs_dot_le a b).trans (le_add_of_nonneg_right (by norm_num))

/-! ### Claim C1: retrieval scoring, ordering and stability -/

theorem strength_register_ne (d : MemoryDecay) (c c' : String) (ts : Option ℝ)
    (wall : ℝ) (now : Option ℝ) (wall2 : ℝ) (h : c ≠ c') :
    (d.register c ts wall).strength c' now wall2 = d.strength c' now wall2 := by
  simp only [MemoryDecay.strength, MemoryDecay.register,
    dictGet_dictSet_ne _ _ _ _ h]

/-- Score of one entry as the claim states it: cosine similarity against the
query times the freshness of the entry's identity in the given decay state. -/
noncomputable def specScore (q : List ℝ) (dec : Option MemoryDecay) (ud : Bool)
    (wall : ℝ) (n : Node) : Scored :=
  { node := n
    score := MemoryGraph.cosine_similarity q n.embedding *
      freshness dec ud n.concept wall }

/-- With pairwise-distinct concepts, the interleaved re-registration inside the
scoring loop never touches a node that is still to be scored, so every entry
is scored against the decay state as it stood when `retrieve` began. -/
theorem scoreNodes_fst_eq_of_nodup (q : List ℝ) (ud : Bool) (wall : ℝ)
    (ns : List Node) (dec : Option MemoryDecay)
    (hnd : (ns.map Node.concept).Nodup) :
    (scoreNodes q ud wall ns dec).1 = ns.map (specScore q dec ud wall) := by
  induction ns generalizing dec with
  | nil => rfl
  | cons n rest ih =>
    rw [List.map_cons] at hnd
    obtain ⟨hn, hndr⟩ := List.nodup_cons.mp hnd
    rw [List.map_cons]
    show specScore q dec ud wall n :: (scoreNodes q ud wall rest _).1 = _
    congr 1
    rw [ih _ hndr]
    apply List.map_congr_left
    intro m hm
    have hne : n.concept ≠ m.concept :=
      fun h => hn (h ▸ List.mem_map_of_mem Node.concept hm)
    rcases dec with _ | d
    · rcases ud with _ | _ <;> rfl
    · rcases ud with _ | _
      · rfl
      · show specScore q (some (d.register n.concept none wall)) true wall m = _
        rw [specScore, specScore, freshness, freshness,
          strength_register_ne d n.concept m.concept none wall none wall hne]

theorem scoreGE_trans (a b c : Scored) (hab : scoreGE a b = true)
    (hbc : scoreGE b c = true) : scoreGE a c = true := by
  simp only [scoreGE, decide_eq_true_eq] at hab hbc ⊢
  exact le_trans hbc hab

theorem scoreGE_total (a b : Scored) : (scoreGE a b || scoreGE b a) = true := by
  simp only [scoreGE, Bool.or_eq_true, decide_eq_true_eq]
  exact le_total b.score a.score

/-- C1: `retrieve` scores every stored entry as
`cosine_similarity(query, entry.vector) * freshness`, where freshness is the
decay strength of the entry's identity when decay is enabled and `use_decay`
is true and 1.0 otherwise, and returns the `top_k` slice of a list that is a
permutation of the scored entries, sorted in descending score order, with
tied entries kept in insertion order (the sort is stable).  Distinct concepts
are assumed so that every entry's freshness reflects the state at call time. -/
theorem c1_retrieve_scored_sorted_stable (g : MemoryGraph) (q : List ℝ) (k : ℤ)
    (ud : Bool) (wall : ℝ) (hnd : (g.nodes.map Node.concept).Nodup) :
    ∃ sortedL : List Scored,
      (g.retrieve q k ud wall).1 = pySlice sortedL k ∧
      sortedL.Perm (g.nodes.map (specScore q g.decay ud wall)) ∧
      sortedL.Pairwise (fun a b => b.score ≤ a.score) ∧
      (∀ x y : Scored, x.score = y.score →
        [x, y].Sublist (g.nodes.map (specScore q g.decay ud wall)) →
        [x, y].Sublist sortedL) := by
  refine ⟨(scoreNodes q ud wall g.nodes g.decay).1.mergeSort scoreGE, rfl, ?_, ?_, ?_⟩
  · rw [scoreNodes_fst_eq_of_nodup q ud wall g.nodes g.decay hnd]
    exact List.mergeSort_perm _ _
  · have h := List.sorted_mergeSort scoreGE_trans scoreGE_total
      ((scoreNodes q ud wall g.nodes g.decay).1)
    exact h.imp (fun hab => by
      simpa only [scoreGE, decide_eq_true_eq] using hab)
  · intro x y hxy hsub
    apply List.sublist_mergeSort scoreGE_trans scoreGE_total
    · refine List.pairwise_cons.mpr ⟨?_, by simp⟩
      intro z hz
      rw [List.mem_singleton] at hz
      subst hz
      simp only [scoreGE, decide_eq_true_eq]
      exact le_of_eq hxy.symm
    · rw [scoreNodes_fst_eq_of_nodup q ud wall g.nodes g.decay hnd]
      exact hsub

/-- C1 witness: the theorem instantiated on a concrete two-node graph without
decay, whose concepts `A`, `B` are distinct. -/
theorem c1_retrieve_scored_sorted_stable_witness :
    ∃ sortedL : List Scored,
      (MemoryGraph.retrieve
        { nodes := [{ concept := "A", embedding := [1], metadata := [] },
                    { concept := "B", embedding := [1], metadata := [] }],
          edges := [], decay := none, link_threshold := 0.7 } [1] 2 true 0).1 =
        pySlice sortedL 2 ∧
      sortedL.Perm (([{ concept := "A", embedding := [1], metadata := [] },
                      { concept := "B", embedding := [1], metadata := [] }] : List Node).map
        (specScore [1] none true 0)) ∧
      sortedL.Pairwise (fun a b => b.score ≤ a.score) ∧
      (∀ x y : Scored, x.score = y.score →
        [x, y].Sublist (([{ concept := "A", embedding := [1], metadata := [] },
                          { concept := "B", embedding := [1], metadata := [] }] : List Node).map
          (specScore [1] none true 0)) →
        [x, y].Sublist sortedL) :=
  c1_retrieve_scored_sorted_stable
    ({ nodes := [{ concept := "A", embedding := [1], metadata := [] },
                 { concept := "B", embedding := [1], metadata := [] }],
       edges := [], decay := none, link_threshold := 0.7 } : MemoryGraph)
    [1] 2 true 0 (by simp)

/-! ### Claim C7: greedy traversal -/

/-- Property from the claim: `n` is the entry of `nodes` with maximal cosine
similarity to the query, ties broken by insertion order (everything before it
is strictly worse, everything after it no better). -/
def IsFirstMaxCos (q : List ℝ) (nodes : List Node) (n : Node) : Prop :=
  ∃ pre post, nodes = pre ++ n :: post ∧
    (∀ m ∈ pre, MemoryGraph.cosine_similarity q m.embedding <
      MemoryGraph.cosine_similarity q n.embedding) ∧
    (∀ m ∈ post, MemoryGraph.cosine_similarity q m.embedding ≤
      MemoryGraph.cosine_similarity q n.embedding)

/-- Property from the claim: one traversal step goes from `cur` to an
unvisited neighbor `nxt` whose `edge_weight * freshness` is maximal among the
unvisited neighbors of `cur`. -/
def StepOk (g : MemoryGraph) (wall : ℝ) (visited : List String)
    (cur nxt : String) : Prop :=
  ∃ w, (nxt, w) ∈ (dictGet g.edges cur).getD [] ∧ nxt ∉ visited ∧
    ∀ p ∈ (dictGet g.edges cur).getD [], p.1 ∉ visited →
      p.2 * freshness g.decay true p.1 wall ≤ w * freshness g.decay true nxt wall

/-- Property from the claim: `rest` is a chain of greedy steps starting at
`cur`, each step extending the visited set. -/
inductive GreedyChain (g : MemoryGraph) (wall : ℝ) :
    List String → String → List String → Prop
  | nil (visited : List String) (cur : String) : GreedyChain g wall visited cur []
  | cons (visited : List String) (cur nxt : String) (rest : List String)
      (hstep : StepOk g wall visited cur nxt)
      (hrest : GreedyChain g wall (visited ++ [nxt]) nxt rest) :
      GreedyChain g wall visited cur (nxt :: rest)

theorem freshness_true_eq (dec : Option MemoryDecay) (c : String) (wall : ℝ) :
    (match dec with
      | some d => d.strength c none wall
      | none => (1 : ℝ)) = freshness dec true c wall := by
  rcases dec with _ | d <;> rfl

theorem pickNext_fold_spec (visited : List String) (dec : Option MemoryDecay)
    (wall : ℝ) (neighbors : List (String × ℝ)) :
    ∀ acc : Option String × ℝ,
    (neighbors.foldl (pickStep visited dec wall) acc = acc ∨
      ∃ nb w, (nb, w) ∈ neighbors ∧ nb ∉ visited ∧
        neighbors.foldl (pickStep visited dec wall) acc =
          (some nb, w * freshness dec true nb wall)) ∧
    (∀ p ∈ neighbors, p.1 ∉ visited →
      p.2 * freshness dec true p.1 wall ≤
        (neighbors.foldl (pickStep visited dec wall) acc).2) ∧
    acc.2 ≤ (neighbors.foldl (pickStep visited dec wall) acc).2 := by
  induction neighbors with
  | nil =>
    intro acc
    exact ⟨Or.inl rfl, by simp, le_refl _⟩
  | cons p rest ih =>
    intro acc
    rw [List.foldl_cons]
    obtain ⟨ih1, ih2, ih3⟩ := ih (pickStep visited dec wall acc p)
    by_cases hv : p.1 ∈ visited
    · have hs : pickStep visited dec wall acc p = acc := by
        rw [pickStep.eq_def, if_pos hv]
      rw [hs] at ih1 ih2 ih3 ⊢
      refine ⟨?_, ?_, ih3⟩
      · rcases ih1 with h | ⟨nb, w, hm, hnv, he⟩
        · exact Or.inl h
        · exact Or.inr ⟨nb, w, List.mem_cons_of_mem _ hm, hnv, he⟩
      · intro p2 hp2 hnv2
        rcases List.mem_cons.mp hp2 with h | hm
        · exact absurd hv (h ▸ hnv2)
        · exact ih2 p2 hm hnv2
    · by_cases hlt : acc.2 < p.2 * freshness dec true p.1 wall
      · have hs : pickStep visited dec wall acc p =
            (some p.1, p.2 * freshness dec true p.1 wall) := by
          rw [pickStep.eq_def, if_neg hv, freshness_true_eq, if_pos hlt]
        rw [hs] at ih1 ih2 ih3 ⊢
        refine ⟨?_, ?_, le_trans (le_of_lt hlt) (by simpa using ih3)⟩
        · rcases ih1 with h | ⟨nb, w, hm, hnv, he⟩
          · exact Or.inr ⟨p.1, p.2, List.mem_cons_self _ _, hv, h⟩
          · exact Or.inr ⟨nb, w, List.mem_cons_of_mem _ hm, hnv, he⟩
        · intro p2 hp2 hnv2
          rcases List.mem_cons.mp hp2 with h | hm
          · rw [h]
            simpa using ih3
          · exact ih2 p2 hm hnv2
      · have hs : pickStep visited dec wall acc p = acc := by
          rw [pickStep.eq_def, if_neg hv, freshness_true_eq, if_neg hlt]
        rw [hs] at ih1 ih2 ih3 ⊢
        refine ⟨?_, ?_, ih3⟩
        · rcases ih1 with h | ⟨nb, w, hm, hnv, he⟩
          · exact Or.inl h
          · exact Or.inr ⟨nb, w, List.mem_cons_of_mem _ hm, hnv, he⟩
        · intro p2 hp2 hnv2
          rcases List.mem_cons.mp hp2 with h | hm
          · rw [h]
            exact le_trans (not_lt.mp hlt) ih3
          · exact ih2 p2 hm hnv2

theorem pickNext_some_spec (neighbors : List (String × ℝ)) (visited : List String)
    (dec : Option MemoryDecay) (wall : ℝ) (nb : String)
    (h : (pickNext neighbors visited dec wall).1 = some nb) :
    nb ∉ visited ∧ ∃ w, (nb, w) ∈ neighbors ∧
      ∀ p ∈ neighbors, p.1 ∉ visited →
        p.2 * freshness dec true p.1 wall ≤ w * freshness dec true nb wall := by
  obtain ⟨h1, h2, _⟩ := pickNext_fold_spec visited dec wall neighbors (none, -1)
  rw [pickNext] at h
  rcases h1 with he | ⟨nb', w, hm, hnv, he⟩
  · rw [he] at h
    simp at h
  · rw [he] at h h2
    simp only at h
    obtain rfl : nb' = nb := Option.some.inj h
    exact ⟨hnv, w, hm, fun p hp hnp => by simpa using h2 p hp hnp⟩

theorem pickNext_none_spec (neighbors : List (String × ℝ)) (visited : List String)
    (dec : Option MemoryDecay) (wall : ℝ)
    (h : (pickNext neighbors visited dec wall).1 = none) :
    ∀ p ∈ neighbors, p.1 ∈ visited ∨
      p.2 * freshness dec true p.1 wall ≤ -1 := by
  obtain ⟨h1, h2, _⟩ := pickNext_fold_spec visited dec wall neighbors (none, -1)
  rw [pickNext] at h
  rcases h1 with he | ⟨nb, w, hm, hnv, he⟩
  · intro p hp
    by_cases hv : p.1 ∈ visited
    · exact Or.inl hv
    · right
      have hle := h2 p hp hv
      rw [he] at hle
      simpa using hle
  · rw [he] at h
    simp at h

/-- Condition under which the step loop of `traverse` breaks while fuel
remains: either no unvisited neighbor of the current node beats the `-1`
sentinel the running maximum starts at (in particular, when no unvisited
neighbor exists at all), or the selected maximal unvisited neighbor is the
empty-string concept, which the Python guard `if not next_node` treats as
absent. -/
def NoStep (g : MemoryGraph) (wall : ℝ) (visited : List String)
    (cur : String) : Prop :=
  (∀ p ∈ (dictGet g.edges cur).getD [], p.1 ∈ visited ∨
    p.2 * freshness g.decay true p.1 wall ≤ -1) ∨
  StepOk g wall visited cur ""

theorem traverseGo_spec (g : MemoryGraph) (wall : ℝ) :
    ∀ (fuel : ℕ) (cur : String) (visited : List String) (path : List (Option Node)),
    ∃ cs : List String,
      (traverseGo g wall fuel cur visited path).1 =
        path ++ cs.map g.get_node_by_concept ∧
      GreedyChain g wall visited cur cs ∧
      cs.length ≤ fuel ∧
      (∀ c ∈ cs, c ∉ visited) ∧ cs.Nodup ∧
      (cs.length < fuel → NoStep g wall (visited ++ cs) (cs.getLastD cur)) := by
  intro fuel
  induction fuel with
  | zero =>
    intro cur visited path
    exact ⟨[], by simp [traverseGo], GreedyChain.nil _ _, by simp, by simp,
      List.nodup_nil, by omega⟩
  | succ fuel ih =>
    intro cur visited path
    rcases hpick : (pickNext ((dictGet g.edges cur).getD []) visited g.decay wall).1
      with _ | nb
    · refine ⟨[], ?_, GreedyChain.nil _ _, by simp, by simp, List.nodup_nil, ?_⟩
      · simp [traverseGo, hpick]
      · intro _
        rw [List.append_nil]
        exact Or.inl (pickNext_none_spec _ _ _ _ hpick)
    · by_cases hnb : nb = ""
      · refine ⟨[], ?_, GreedyChain.nil _ _, by simp, by simp, List.nodup_nil, ?_⟩
        · simp [traverseGo, hpick, hnb]
        · intro _
          rw [List.append_nil]
          obtain ⟨hnv, w, hmem, hmax⟩ := pickNext_some_spec _ _ _ _ _ hpick
          subst hnb
          exact Or.inr ⟨w, hmem, hnv, hmax⟩
      · obtain ⟨hnv, w, hmem, hmax⟩ := pickNext_some_spec _ _ _ _ _ hpick
        obtain ⟨cs', h1, h2, h3, h4, h5, h6⟩ :=
          ih nb (visited ++ [nb]) (path ++ [g.get_node_by_concept nb])
        have hunf : (traverseGo g wall (fuel + 1) cur visited path) =
            traverseGo g wall fuel nb (visited ++ [nb])
              (path ++ [g.get_node_by_concept nb]) := by
          simp [traverseGo, hpick, hnb]
        refine ⟨nb :: cs', ?_, ?_, ?_, ?_, ?_, ?_⟩
        · rw [hunf, h1, List.map_cons]
          simp
        · exact GreedyChain.cons _ _ _ _ ⟨w, hmem, hnv, hmax⟩ h2
        · simpa using Nat.succ_le_succ h3
        · intro c hc
          rcases List.mem_cons.mp hc with h | hcs
          · exact h ▸ hnv
          · intro hcv
            exact (h4 c hcs) (List.mem_append_left _ hcv)
        · rw [List.nodup_cons]
          refine ⟨fun hmem2 => (h4 nb hmem2) ?_, h5⟩
          exact List.mem_append_right _ (List.mem_singleton.mpr rfl)
        · intro hlt
          have hlt2 : cs'.length < fuel := by
            simpa using Nat.lt_of_succ_lt_succ (by simpa using hlt)
          have hns := h6 hlt2
          rw [List.getLastD_cons]
          rw [show visited ++ nb :: cs' = (visited ++ [nb]) ++ cs' from by
            rw [List.append_assoc, List.singleton_append]]
          exact hns

theorem cos_le_foldl_pyMax (q : List ℝ) (rest : List Node) :
    ∀ n : Node, MemoryGraph.cosine_similarity q n.embedding ≤
      MemoryGraph.cosine_similarity q ((rest.foldl (pyMaxStep q) n).embedding) := by
  induction rest with
  | nil => intro n; exact le_refl _
  | cons m rest ih =>
    intro n
    rw [List.foldl_cons]
    refine le_trans ?_ (ih (pyMaxStep q n m))
    rw [pyMaxStep]
    by_cases h : MemoryGraph.cosine_similarity q n.embedding <
        MemoryGraph.cosine_similarity q m.embedding
    · rw [if_pos h]
      exact le_of_lt h
    · rw [if_neg h]

theorem foldl_pyMax_spec (q : List ℝ) (rest : List Node) :
    ∀ n : Node,
    ∃ pre post, n :: rest = pre ++ (rest.foldl (pyMaxStep q) n) :: post ∧
      (∀ m ∈ pre, MemoryGraph.cosine_similarity q m.embedding <
        MemoryGraph.cosine_similarity q (rest.foldl (pyMaxStep q) n).embedding) ∧
      (∀ m ∈ post, MemoryGraph.cosine_similarity q m.embedding ≤
        MemoryGraph.cosine_similarity q (rest.foldl (pyMaxStep q) n).embedding) := by
  induction rest with
  | nil =>
    intro n
    exact ⟨[], [], rfl, by simp, by simp⟩
  | cons m rest ih =>
    intro n
    rw [List.foldl_cons]
    by_cases h : MemoryGraph.cosine_similarity q n.embedding <
        MemoryGraph.cosine_similarity q m.embedding
    · have hs : pyMaxStep q n m = m := by rw [pyMaxStep, if_pos h]
      rw [hs]
      obtain ⟨pre, post, heq, hpre, hpost⟩ := ih m
      refine ⟨n :: pre, post, ?_, ?_, hpost⟩
      · rw [List.cons_append, ← heq]
      · intro x hx
        rcases List.mem_cons.mp hx with hx1 | hm2
        · rw [hx1]
          exact lt_of_lt_of_le h (cos_le_foldl_pyMax q rest m)
        · exact hpre x hm2
    · have hs : pyMaxStep q n m = n := by rw [pyMaxStep, if_neg h]
      rw [hs]
      obtain ⟨pre, post, heq, hpre, hpost⟩ := ih n
      rcases pre with _ | ⟨a, p2⟩
      · rw [List.nil_append] at heq
        injection heq with hb hp
        refine ⟨[], m :: rest, ?_, by simp, ?_⟩
        · rw [List.nil_append, ← hb]
        · intro x hx
          rcases List.mem_cons.mp hx with hx1 | hx2
          · rw [hx1, ← hb]
            exact not_lt.mp h
          · exact hpost x (hp ▸ hx2)
      · rw [List.cons_append] at heq
        injection heq with ha hr
        have hna : MemoryGraph.cosine_similarity q n.embedding <
            MemoryGraph.cosine_similarity q (rest.foldl (pyMaxStep q) n).embedding := by
          have := hpre a (List.mem_cons_self _ _)
          rw [← ha] at this
          exact this
        refine ⟨n :: m :: p2, post, ?_, ?_, hpost⟩
        · rw [List.cons_append, List.cons_append, ← hr]
        · intro x hx
          rcases List.mem_cons.mp hx with hx1 | hx2
          · rw [hx1]
            exact hna
          rcases List.mem_cons.mp hx2 with hx3 | hx4
          · rw [hx3]
            exact lt_of_le_of_lt (not_lt.mp h) hna
          · exact hpre x (List.mem_cons_of_mem _ hx4)

theorem pyMaxByCos_spec (q : List ℝ) (nodes : List Node) (hne : nodes ≠ []) :
    ∃ start, pyMaxByCos q nodes = some start ∧ IsFirstMaxCos q nodes start := by
  rcases nodes with _ | ⟨n, rest⟩
  · exact absurd rfl hne
  · obtain ⟨pre, post, heq, hpre, hpost⟩ := foldl_pyMax_spec q rest n
    exact ⟨_, rfl, pre, post, heq, hpre, hpost⟩

/-- C7 counterexample: with `depth = 0` the claim demands a path of length at
most 0, but `traverse` still returns the start node (`range(depth - 1)` is
simply empty), so a one-node graph yields a path of length 1. -/
theorem c7_counterexample :
    ¬ (((MemoryGraph.traverse
      { nodes := [{ concept := "A", embedding := [1], metadata := [] }],
        edges := [], decay := none, link_threshold := 0.7 }
      [1] 0 5).1.length : ℤ) ≤ 0) := by
  have hp : (MemoryGraph.traverse
      { nodes := [{ concept := "A", embedding := [1], metadata := [] }],
        edges := [], decay := none, link_threshold := 0.7 }
      [1] 0 5).1 = [some { concept := "A", embedding := [1], metadata := [] }] := by
    simp [MemoryGraph.traverse, pyMaxByCos,
      show ((0 : ℤ) - 1).toNat = 0 from by decide, traverseGo]
  rw [hp]
  decide

/-- C7 (amended): for every `depth ≥ 1`, `traverse` starts at the first entry
maximizing cosine similarity to the query (empty graph: empty path), every
subsequent element is reached by stepping to an unvisited neighbor maximizing
`edge_weight * freshness`, the concept sequence never repeats, and the path
length is at most `depth`.  The walk stops before reaching `depth` only when
no further step is possible at the final node: every unvisited neighbor
scores at most the `-1` sentinel — in particular when no unvisited neighbor
exists — or the selected maximal neighbor is the falsy empty-string concept.
For `depth ≤ 0` the length bound fails (the start node is always returned),
which is what the counterexample exhibits. -/
theorem c7_traverse_greedy_path (g : MemoryGraph) (q : List ℝ) (depth : ℤ)
    (wall : ℝ) (hdepth : 1 ≤ depth) :
    (g.nodes = [] → (g.traverse q depth wall).1 = []) ∧
    (g.nodes ≠ [] → ∃ start cs,
      IsFirstMaxCos q g.nodes start ∧
      (g.traverse q depth wall).1 =
        some start :: List.map g.get_node_by_concept cs ∧
      GreedyChain g wall [start.concept] start.concept cs ∧
      (start.concept :: cs).Nodup ∧
      ((g.traverse q depth wall).1.length : ℤ) ≤ depth ∧
      (((g.traverse q depth wall).1.length : ℤ) < depth →
        NoStep g wall (start.concept :: cs) (cs.getLastD start.concept))) := by
  constructor
  · intro hnil
    simp [MemoryGraph.traverse, hnil, pyMaxByCos]
  · intro hne
    obtain ⟨start, hmax, hfirst⟩ := pyMaxByCos_spec q g.nodes hne
    obtain ⟨cs, h1, h2, h3, h4, h5, h6⟩ := traverseGo_spec g wall ((depth - 1).toNat)
      start.concept [start.concept] [some start]
    have htr : (g.traverse q depth wall).1 =
        (traverseGo g wall (depth - 1).toNat start.concept [start.concept]
          [some start]).1 := by
      rw [MemoryGraph.traverse, hmax]
    have hn : ((depth - 1).toNat : ℤ) = depth - 1 := Int.toNat_of_nonneg (by omega)
    have hplen : (g.traverse q depth wall).1.length = 1 + cs.length := by
      rw [htr, h1, List.length_append, List.length_map, List.length_singleton]
    refine ⟨start, cs, hfirst, ?_, h2, ?_, ?_, ?_⟩
    · rw [htr, h1]
      rfl
    · rw [List.nodup_cons]
      exact ⟨fun hmem => (h4 start.concept hmem) (List.mem_singleton.mpr rfl), h5⟩
    · rw [hplen]
      have hlen := h3
      omega
    · intro hlt
      rw [hplen] at hlt
      have hlt2 : cs.length < (depth - 1).toNat := by omega
      have hns := h6 hlt2
      rw [List.singleton_append] at hns
      exact hns

/-- C7 witness: the amended statement instantiated on a concrete one-node
graph with `depth = 1`. -/
theorem c7_traverse_greedy_path_witness :
    (([{ concept := "A", embedding := [1], metadata := [] }] : List Node) = [] →
      (MemoryGraph.traverse
        { nodes := [{ concept := "A", embedding := [1], metadata := [] }],
          edges := [], decay := none, link_threshold := 0.7 } [1] 1 5).1 = []) ∧
    (([{ concept := "A", embedding := [1], metadata := [] }] : List Node) ≠ [] →
      ∃ start cs,
        IsFirstMaxCos [1]
          [{ concept := "A", embedding := [1], metadata := [] }] start ∧
        (MemoryGraph.traverse
          { nodes := [{ concept := "A", embedding := [1], metadata := [] }],
            edges := [], decay := none, link_threshold := 0.7 } [1] 1 5).1 =
          some start :: List.map (MemoryGraph.get_node_by_concept
            { nodes := [{ concept := "A", embedding := [1], metadata := [] }],
              edges := [], decay := none, link_threshold := 0.7 }) cs ∧
        GreedyChain
          { nodes := [{ concept := "A", embedding := [1], metadata := [] }],
            edges := [], decay := none, link_threshold := 0.7 } 5
          [start.concept] start.concept cs ∧
        (start.concept :: cs).Nodup ∧
        (((MemoryGraph.traverse
          { nodes := [{ concept := "A", embedding := [1], metadata := [] }],
            edges := [], decay := none, link_threshold := 0.7 }
          [1] 1 5).1.length : ℤ) ≤ 1) ∧
        ((((MemoryGraph.traverse
          { nodes := [{ concept := "A", embedding := [1], metadata := [] }],
            edges := [], decay := none, link_threshold := 0.7 }
          [1] 1 5).1.length : ℤ) < 1) →
          NoStep
            { nodes := [{ concept := "A", embedding := [1], metadata := [] }],
              edges := [], decay := none, link_threshold := 0.7 } 5
            (start.concept :: cs) (cs.getLastD start.concept))) :=
  c7_traverse_greedy_path
    ({ nodes := [{ concept := "A", embedding := [1], metadata := [] }],
       edges := [], decay := none, link_threshold := 0.7 } : MemoryGraph)
    [1] 1 5 (le_refl 1)

/-! ### Claim C8: reachable states and score bounds -/

theorem scoreNodes_snd_none (q : List ℝ) (ud : Bool) (wall : ℝ) (ns : List Node) :
    (scoreNodes q ud wall ns none).2 = none := by
  induction ns with
  | nil => rfl
  | cons n rest ih => simpa [scoreNodes] using ih

theorem scoreNodes_snd_false (q : List ℝ) (wall : ℝ) (ns : List Node)
    (dec : Option MemoryDecay) : (scoreNodes q false wall ns dec).2 = dec := by
  induction ns generalizing dec with
  | nil => rfl
  | cons n rest ih =>
    show (scoreNodes q false wall rest _).2 = dec
    rcases dec with _ | d
    · exact ih none
    · exact ih (some d)

theorem strength_unit_of_le (d : MemoryDecay) (c : String) (wall : ℝ)
    (hhl : 0 < d.half_life)
    (hts : ∀ t, dictGet d.memory_times c = some t → t ≤ wall) :
    0 ≤ d.strength c none wall ∧ d.strength c none wall ≤ 1 := by
  simp only [MemoryDecay.strength, orWall]
  rcases hg : dictGet d.memory_times c with _ | t
  · simp only [hg, Option.getD_none, sub_self, zero_div, Real.rpow_zero]
    exact ⟨zero_le_one, le_refl 1⟩
  · have ht := hts t hg
    simp only [hg, Option.getD_some]
    constructor
    · exact Real.rpow_nonneg (by norm_num) _
    · apply Real.rpow_le_one (by norm_num) (by norm_num)
      apply div_nonneg (by linarith) (le_of_lt hhl)

theorem mul_unit_bound (w f : ℝ) (hw : |w| ≤ 1) (hf0 : 0 ≤ f) (hf1 : f ≤ 1) :
    -1 ≤ w * f ∧ w * f ≤ 1 := by
  have h : |w * f| ≤ 1 := by
    rw [abs_mul, abs_of_nonneg hf0]
    calc |w| * f ≤ 1 * 1 := mul_le_mul hw hf1 hf0 zero_le_one
      _ = 1 := one_mul 1
  exact abs_le.mp h

theorem foldl_autoLink_edgeGet_cases (c : String) (v : List ℝ) (th : ℝ)
    (others : List Node) (es0 : EdgeDict) (a b : String) (w : ℝ)
    (h : edgeGet (others.foldl (autoLinkStep c v th) es0) a b = some w) :
    edgeGet es0 a b = some w ∨
      ∃ o ∈ others, w = MemoryGraph.cosine_similarity v o.embedding := by
  induction others generalizing es0 with
  | nil => exact Or.inl h
  | cons o rest ih =>
    rw [List.foldl_cons] at h
    rcases ih _ h with h2 | ⟨o2, ho2, hw⟩
    · rw [autoLinkStep] at h2
      by_cases hs : th ≤ MemoryGraph.cosine_similarity v o.embedding
      · rw [if_pos hs, edgeGet_edgeSet] at h2
        by_cases hc1 : a = o.concept ∧ b = c
        · rw [if_pos hc1] at h2
          exact Or.inr ⟨o, List.mem_cons_self _ _, (Option.some.inj h2).symm⟩
        · rw [if_neg hc1, edgeGet_edgeSet] at h2
          by_cases hc2 : a = c ∧ b = o.concept
          · rw [if_pos hc2] at h2
            exact Or.inr ⟨o, List.mem_cons_self _ _, (Option.some.inj h2).symm⟩
          · rw [if_neg hc2] at h2
            exact Or.inl h2
      · rw [if_neg hs] at h2
        exact Or.inl h2
    · exact Or.inr ⟨o2, List.mem_cons_of_mem _ ho2, hw⟩

theorem prune_edgeGet_sub (g : MemoryGraph) (th wall : ℝ) (a b : String) (w : ℝ)
    (h : edgeGet (g.prune th wall).2.edges a b = some w) :
    edgeGet g.edges a b = some w := by
  rcases hd : g.decay with _ | d
  · have hsame : (g.prune th wall).2 = g := by rw [MemoryGraph.prune, hd]
    rw [hsame] at h
    exact h
  · have hedges2 : (g.prune th wall).2.edges =
        (g.edges.filter
          (fun kv : String × List (String × ℝ) =>
            !(decide (kv.1 ∈ (g.nodes.filter
              (fun n => d.should_forget n.concept th wall)).map Node.concept)))).map
          (fun kv : String × List (String × ℝ) =>
            (kv.1, kv.2.filter (fun e : String × ℝ =>
              !(decide (e.1 ∈ (g.nodes.filter
                (fun n => d.should_forget n.concept th wall)).map Node.concept))))) := by
      rw [MemoryGraph.prune, hd]
    rw [hedges2, edgeGet, dictGet_mapValues, dictGet_filterKeys] at h
    by_cases ha : a ∈ (g.nodes.filter
        (fun n => d.should_forget n.concept th wall)).map Node.concept
    · rw [if_pos ha] at h
      simp at h
    · rw [if_neg ha] at h
      rcases hga : dictGet g.edges a with _ | inner
      · rw [hga] at h
        simp at h
      · rw [hga] at h
        simp only [Option.map_some'] at h
        rw [dictGet_filterKeys] at h
        by_cases hb : b ∈ (g.nodes.filter
            (fun n => d.should_forget n.concept th wall)).map Node.concept
        · rw [if_pos hb] at h
          exact absurd h (by simp)
        · rw [if_neg hb] at h
          rw [edgeGet, hga]
          exact h

/-- Invariant of reachable states: a present decay engine has a strictly
positive half-life (the spec declares `half_life` a strictly positive
configuration parameter) and no stored timestamp lies in the future. -/
def DecayOK (g : MemoryGraph) (now : ℝ) : Prop :=
  ∀ d, g.decay = some d → 0 < d.half_life ∧
    ∀ c t, dictGet d.memory_times c = some t → t ≤ now

/-- Invariant of reachable states: every stored edge weight is an
insertion-time cosine similarity, hence lies in [-1, 1]. -/
def EdgesBounded (g : MemoryGraph) : Prop :=
  ∀ a b w, edgeGet g.edges a b = some w → |w| ≤ 1

/-- States reachable from a freshly constructed graph (with a positive
half-life, per the spec's configuration contract) through the public
operations, under a monotone clock. -/
inductive Reachable : MemoryGraph → ℝ → Prop
  | init (ud : Bool) (hl lt : ℝ) (now : ℝ) (hhl : 0 < hl) :
      Reachable (MemoryGraph.init ud hl lt) now
  | tick {g : MemoryGraph} {now : ℝ} (now2 : ℝ) (h : Reachable g now)
      (hle : now ≤ now2) : Reachable g now2
  | store {g : MemoryGraph} {now : ℝ} (c : String) (v : List ℝ)
      (m : Option (List (String × String))) (h : Reachable g now) :
      Reachable (g.store c v m now) now
  | retrieve {g : MemoryGraph} {now : ℝ} (q : List ℝ) (k : ℤ) (ud : Bool)
      (h : Reachable g now) : Reachable ((g.retrieve q k ud now).2) now
  | prune {g : MemoryGraph} {now : ℝ} (th : ℝ) (h : Reachable g now) :
      Reachable ((g.prune th now).2) now

theorem prune_keeps_decay (g : MemoryGraph) (th wall : ℝ) :
    (g.prune th wall).2.decay = g.decay := by
  rcases hd : g.decay with _ | d
  · rw [MemoryGraph.prune, hd]
    exact hd
  · rw [MemoryGraph.prune, hd]

theorem reachable_decayOK {g : MemoryGraph} {now : ℝ} (h : Reachable g now) :
    DecayOK g now := by
  induction h with
  | init ud hl lt now hhl =>
    intro d hd
    rcases ud with _ | _
    · simp [MemoryGraph.init] at hd
    · rw [MemoryGraph.init] at hd
      simp only [if_pos rfl] at hd
      refine ⟨?_, ?_⟩
      · rw [← Option.some.inj hd, MemoryDecay.init]
        exact hhl
      · intro c t ht
        rw [← Option.some.inj hd, MemoryDecay.init] at ht
        simp [dictGet] at ht
  | tick now2 h hle ih =>
    intro d hd
    obtain ⟨h1, h2⟩ := ih d hd
    exact ⟨h1, fun c t ht => le_trans (h2 c t ht) hle⟩
  | @store g now c v m h ih =>
    intro d1 hd1
    have hdec : (g.store c v m now).decay =
        (match g.decay with
          | some d0 => some (d0.register c none now)
          | none => none) := rfl
    rcases hg : g.decay with _ | d0
    · rw [hdec, hg] at hd1
      exact absurd hd1 (by simp)
    · rw [hdec, hg] at hd1
      obtain rfl : d0.register c none now = d1 := Option.some.inj hd1
      obtain ⟨hhl0, hts0⟩ := ih d0 hg
      refine ⟨hhl0, ?_⟩
      intro c2 t ht
      rw [MemoryDecay.register] at ht
      by_cases hc2 : c = c2
      · subst hc2
        rw [dictGet_dictSet_self] at ht
        obtain rfl : orWall none now = t := Option.some.inj ht
        exact le_refl now
      · rw [dictGet_dictSet_ne _ _ _ _ hc2] at ht
        exact hts0 c2 t ht
  | @retrieve g now q k ud h ih =>
    intro d1 hd1
    have hdec : ((g.retrieve q k ud now).2).decay =
        (scoreNodes q ud now g.nodes g.decay).2 := rfl
    rcases hg : g.decay with _ | d0
    · rw [hdec, hg, scoreNodes_snd_none] at hd1
      exact absurd hd1 (by simp)
    · rcases ud with _ | _
      · rw [hdec, hg, scoreNodes_snd_false] at hd1
        obtain rfl : d0 = d1 := Option.some.inj hd1
        exact ih d0 hg
      · obtain ⟨d2, h2, hhl2, hin, hout⟩ := scoreNodes_decay_spec q now g.nodes d0
        rw [hdec, hg, h2] at hd1
        obtain rfl : d2 = d1 := Option.some.inj hd1
        obtain ⟨hhl0, hts0⟩ := ih d0 hg
        refine ⟨by rw [hhl2]; exact hhl0, ?_⟩
        intro c2 t ht
        by_cases hc2 : c2 ∈ g.nodes.map Node.concept
        · have := hin c2 hc2
          rw [ht] at this
          obtain rfl : t = now := Option.some.inj this
          exact le_refl _
        · rw [hout c2 hc2] at ht
          exact hts0 c2 t ht
  | @prune g now th h ih =>
    intro d1 hd1
    rw [prune_keeps_decay] at hd1
    exact ih d1 hd1

theorem reachable_edgesBounded {g : MemoryGraph} {now : ℝ} (h : Reachable g now) :
    EdgesBounded g := by
  induction h with
  | init ud hl lt now hhl =>
    intro a b w hw
    have : edgeGet ((MemoryGraph.init ud hl lt).edges) a b = none := by
      rw [MemoryGraph.init, edgeGet]
      simp [dictGet]
    rw [this] at hw
    exact absurd hw (by simp)
  | tick now2 h hle ih => exact ih
  | @store g now c v m h ih =>
    intro a b w hw
    have hedges : (g.store c v m now).edges =
        g.nodes.foldl (autoLinkStep c v g.link_threshold) g.edges := rfl
    rw [hedges] at hw
    rcases foldl_autoLink_edgeGet_cases c v g.link_threshold g.nodes g.edges
      a b w hw with hold | ⟨o, _, rfl⟩
    · exact ih a b w hold
    · exact cosine_abs_le_one v o.embedding
  | @retrieve g now q k ud h ih =>
    intro a b w hw
    have hedges : ((g.retrieve q k ud now).2).edges = g.edges := rfl
    rw [hedges] at hw
    exact ih a b w hw
  | @prune g now th h ih =>
    intro a b w hw
    exact ih a b w (prune_edgeGet_sub g th now a b w hw)

theorem freshness_unit (dec : Option MemoryDecay) (ud : Bool) (c : String)
    (wall : ℝ)
    (hdec : ∀ d, dec = some d → 0 < d.half_life ∧
      ∀ c2 t, dictGet d.memory_times c2 = some t → t ≤ wall) :
    0 ≤ freshness dec ud c wall ∧ freshness dec ud c wall ≤ 1 := by
  rcases dec with _ | d
  · rcases ud with _ | _ <;> exact ⟨zero_le_one, le_refl 1⟩
  · rcases ud with _ | _
    · exact ⟨zero_le_one, le_refl 1⟩
    · obtain ⟨hhl, hts⟩ := hdec d rfl
      exact strength_unit_of_le d c wall hhl (fun t ht => hts c t ht)

theorem scoreNodes_mem_score_bound (q : List ℝ) (ud : Bool) (wall : ℝ) :
    ∀ (ns : List Node) (dec : Option MemoryDecay),
    (∀ d, dec = some d → 0 < d.half_life ∧
      ∀ c2 t, dictGet d.memory_times c2 = some t → t ≤ wall) →
    ∀ s ∈ (scoreNodes q ud wall ns dec).1, -1 ≤ s.score ∧ s.score ≤ 1 := by
  intro ns
  induction ns with
  | nil =>
    intro dec hdec s hs
    simp [scoreNodes] at hs
  | cons n rest ih =>
    intro dec hdec s hs
    simp only [scoreNodes] at hs
    rcases List.mem_cons.mp hs with h1 | h2
    · have hcos := cosine_abs_le_one q n.embedding
      have hf := freshness_unit dec ud n.concept wall hdec
      have hb := mul_unit_bound _ _ hcos hf.1 hf.2
      rw [h1]
      exact hb
    · have hdec1 : ∀ d, (match dec, ud with
          | some d0, true => some (d0.register n.concept none wall)
          | d0, _ => d0) = some d → 0 < d.half_life ∧
          ∀ c2 t, dictGet d.memory_times c2 = some t → t ≤ wall := by
        rcases dec with _ | d0
        · rcases ud with _ | _ <;> exact fun d hd => hdec d hd
        · rcases ud with _ | _
          · exact fun d hd => hdec d hd
          · intro d hd
            obtain rfl : d0.register n.concept none wall = d := Option.some.inj hd
            obtain ⟨hhl0, hts0⟩ := hdec d0 rfl
            refine ⟨hhl0, ?_⟩
            intro c2 t ht
            rw [MemoryDecay.register] at ht
            by_cases hc2 : n.concept = c2
            · subst hc2
              rw [dictGet_dictSet_self] at ht
              obtain rfl : orWall none wall = t := Option.some.inj ht
              exact le_refl _
            · rw [dictGet_dictSet_ne _ _ _ _ hc2] at ht
              exact hts0 c2 t ht
      exact ih _ hdec1 s h2

/-- C8: cosine similarity always lies in [-1, 1]; on every reachable state
(constructed with a positive half-life and driven by a monotone clock) every
decay strength lies in [0, 1]; every score produced by `retrieve` lies in
[-1, 1]; and every `edge_weight * freshness` value of the kind `traverse`
ranks neighbors by lies in [-1, 1]. -/
theorem c8_similarity_freshness_score_bounds :
    (∀ a b : List ℝ, -1 ≤ MemoryGraph.cosine_similarity a b ∧
      MemoryGraph.cosine_similarity a b ≤ 1) ∧
    (∀ g now, Reachable g now → ∀ d, g.decay = some d → ∀ c,
      0 ≤ d.strength c none now ∧ d.strength c none now ≤ 1) ∧
    (∀ g now, Reachable g now → ∀ q k ud s, s ∈ (g.retrieve q k ud now).1 →
      -1 ≤ s.score ∧ s.score ≤ 1) ∧
    (∀ g now, Reachable g now → ∀ a b w, edgeGet g.edges a b = some w → ∀ c,
      -1 ≤ w * freshness g.decay true c now ∧
        w * freshness g.decay true c now ≤ 1) := by
  refine ⟨?_, ?_, ?_, ?_⟩
  · intro a b
    exact abs_le.mp (cosine_abs_le_one a b)
  · intro g now hre d hd c
    obtain ⟨hhl, hts⟩ := reachable_decayOK hre d hd
    exact strength_unit_of_le d c now hhl (fun t ht => hts c t ht)
  · intro g now hre q k ud s hs
    have heq : (g.retrieve q k ud now).1 =
        pySlice ((scoreNodes q ud now g.nodes g.decay).1.mergeSort scoreGE) k := rfl
    rw [heq, pySlice] at hs
    have hmem : s ∈ (scoreNodes q ud now g.nodes g.decay).1.mergeSort scoreGE := by
      by_cases hk : 0 ≤ k
      · rw [if_pos hk] at hs
        exact List.mem_of_mem_take hs
      · rw [if_neg hk] at hs
        exact List.mem_of_mem_take hs
    have hmem2 : s ∈ (scoreNodes q ud now g.nodes g.decay).1 :=
      (List.mergeSort_perm _ scoreGE).subset hmem
    exact scoreNodes_mem_score_bound q ud now g.nodes g.decay
      (reachable_decayOK hre) s hmem2
  · intro g now hre a b w hw c
    have hwb := reachable_edgesBounded hre a b w hw
    have hf := freshness_unit g.decay true c now (reachable_decayOK hre)
    exact mul_unit_bound w _ hwb hf.1 hf.2

/-- C8 witness: the bounds instantiated at the one-element vectors `[1]` and
at a freshly constructed decay-enabled graph (half-life 10, clock at 0),
whose reachability is established by the construction rule. -/
theorem c8_similarity_freshness_score_bounds_witness :
    (-1 ≤ MemoryGraph.cosine_similarity [1] [1] ∧
      MemoryGraph.cosine_similarity [1] [1] ≤ 1) ∧
    (0 ≤ (MemoryDecay.init 10).strength "x" none 0 ∧
      (MemoryDecay.init 10).strength "x" none 0 ≤ 1) := by
  have h := c8_similarity_freshness_score_bounds
  refine ⟨h.1 [1] [1], ?_⟩
  exact h.2.1 (MemoryGraph.init true 10 0.7) 0
    (Reachable.init true 10 0.7 0 (by norm_num)) (MemoryDecay.init 10) rfl "x"

end Cortica
